import Mathlib

/-!
In-place matrix transposition (`transpose.c`).

A shallow embedding of the core of `transpose.c`: `gcd`, `transpose_index`,
`should_transpose_cycle`, `transpose_cycle` and `transpose_matrix`.

* `unsigned long` values are natural numbers; every arithmetic operation of the
  source that can wrap is reduced modulo `ULONG_MAX + 1` explicitly.
* The buffer `unsigned long *matrix` is a `List Nat`; every access is checked and
  an access outside the list is the fault `Fault.outOfBounds`.
* Every loop of the source is a recursive function over a fuel argument; running
  out of fuel is the fault `Fault.outOfFuel`.
* `assert(count > 1)` failing is the fault `Fault.assertFailed`.
* The machine state carries a ghost trace of events (most recent first) which
  never influences control flow.
-/

namespace Transpose

/-- Largest value of the C type `unsigned long`, taken from `<limits.h>` of a 64-bit (LP64)
platform, the one the comments of `print_matrix` assume. The general theorems use nothing
about the value. -/
def ULONG_MAX : Nat := 18446744073709551615

/-- Reduction of an exact value to `unsigned long`. -/
def wrap (n : Nat) : Nat := n % (ULONG_MAX + 1)

/-- Addition of `unsigned long`: `a + b`. -/
def uadd (a b : Nat) : Nat := wrap (a + b)

/-- Subtraction of `unsigned long`: `a - b`, wrapping below zero. -/
def usub (a b : Nat) : Nat := wrap (a + (ULONG_MAX + 1 - wrap b))

/-- Multiplication of `unsigned long`: `a * b`. -/
def umul (a b : Nat) : Nat := wrap (a * b)

/-- Ways in which a run of the embedded program can fail to return. -/
inductive Fault where
  | outOfFuel
  | outOfBounds
  | assertFailed
  deriving DecidableEq, Repr

/-- Ghost events recorded while the program runs. -/
inductive Event where
  /-- The statement `nswaps -= amount` ran when `nswaps` held the given value. -/
  | sub (nswaps amount : Nat)
  /-- The body `++index` of the seed search loop ran, leaving the given value. -/
  | skip (index : Nat)
  /-- The call `should_transpose_cycle(rows, cols, index)` made by `transpose_matrix`. -/
  | probe (index : Nat)
  /-- The function `transpose_cycle` was entered with the given `start`. -/
  | rotate (start : Nat)
  /-- The statement `matrix[to] = prev` ran. -/
  | write (dest : Nat)
  deriving DecidableEq, Repr

/-- The buffer together with the ghost trace (most recent event first). -/
structure Machine where
  matrix : List Nat
  trace : List Event
  deriving DecidableEq, Repr

/-- The loop of `gcd`: `while (b) { temp = a % b; a = b; b = temp; }`. -/
def gcd_loop : Nat → Nat → Nat → Except Fault Nat
  | 0, _, _ => .error .outOfFuel
  | fuel + 1, a, b =>
    if b ≠ 0 then
      let temp := a % b
      gcd_loop fuel b temp
    else .ok a

/-- The function `gcd(a, b)`. -/
def gcd (fuel a b : Nat) : Except Fault Nat :=
  gcd_loop fuel a b

/-- The function `transpose_index(rows, cols, index)`. The division `index / cols` is
undefined in C for `cols = 0`; every statement below has `cols ≥ 1`. -/
def transpose_index (rows cols index : Nat) : Nat :=
  let from_row := index / cols
  let from_col := usub index (umul from_row cols)
  let to_col := from_row
  let to_row := from_col
  let to_ := uadd (umul to_row rows) to_col
  to_

/-- The `for (;;)` loop of `should_transpose_cycle`; returns `(count, from)` at the `break`. -/
def should_transpose_cycle_loop (rows cols start : Nat) :
    Nat → Nat → Nat → Except Fault (Nat × Nat)
  | 0, _, _ => .error .outOfFuel
  | fuel + 1, count, from_ =>
    let from_ := transpose_index rows cols from_
    if from_ > start then
      should_transpose_cycle_loop rows cols start fuel (uadd count 1) from_
    else .ok (count, from_)

/-- The function `should_transpose_cycle(rows, cols, start)`; the C truth value is a `Bool`. -/
def should_transpose_cycle (fuel rows cols start : Nat) : Except Fault Bool :=
  match should_transpose_cycle_loop rows cols start fuel 0 start with
  | .error e => .error e
  | .ok (count, from_) => .ok (from_ == start && count != 0)

/-- The `for (;;)` loop of `transpose_cycle`; returns the machine and `count` at the `break`. -/
def transpose_cycle_loop (rows cols start : Nat) :
    Nat → Machine → Nat → Nat → Nat → Except Fault (Machine × Nat)
  | 0, _, _, _, _ => .error .outOfFuel
  | fuel + 1, st, count, from_, prev =>
    let count := uadd count 1
    let to_ := transpose_index rows cols from_
    match st.matrix[to_]? with
    | none => .error .outOfBounds
    | some temp =>
      let st : Machine := ⟨st.matrix.set to_ prev, .write to_ :: st.trace⟩
      if to_ = start then .ok (st, count)
      else transpose_cycle_loop rows cols start fuel st count to_ temp

/-- The function `transpose_cycle(rows, cols, matrix, start)`; returns the machine and `count`. -/
def transpose_cycle (fuel rows cols : Nat) (st : Machine) (start : Nat) :
    Except Fault (Machine × Nat) :=
  let st : Machine := ⟨st.matrix, .rotate start :: st.trace⟩
  match st.matrix[start]? with
  | none => .error .outOfBounds
  | some prev =>
    match transpose_cycle_loop rows cols start fuel st 0 start prev with
    | .error e => .error e
    | .ok (st, count) => if count > 1 then .ok (st, count) else .error .assertFailed

/-- The seed search loop of `transpose_matrix`:
`while (transpose_index(rows, cols, index) == index) ++index;`. -/
def seed_loop (rows cols : Nat) : Nat → Machine → Nat → Except Fault (Machine × Nat)
  | 0, _, _ => .error .outOfFuel
  | fuel + 1, st, index =>
    if transpose_index rows cols index = index then
      let index := uadd index 1
      seed_loop rows cols fuel ⟨st.matrix, .skip index :: st.trace⟩ index
    else .ok (st, index)

/-- The loop `while (nswaps) { ... }` of `transpose_matrix`; `fuel0` is the fuel handed to
the functions it calls. Returns the machine and the value of `nswaps` at the exit. -/
def transpose_matrix_loop (rows cols fuel0 : Nat) :
    Nat → Machine → Nat → Nat → Except Fault (Machine × Nat)
  | 0, _, _, _ => .error .outOfFuel
  | fuel + 1, st, nswaps, index =>
    if nswaps ≠ 0 then
      let index := uadd index 1
      let st : Machine := ⟨st.matrix, .probe index :: st.trace⟩
      match should_transpose_cycle fuel0 rows cols index with
      | .error e => .error e
      | .ok false => transpose_matrix_loop rows cols fuel0 fuel st nswaps index
      | .ok true =>
        match transpose_cycle fuel0 rows cols st index with
        | .error e => .error e
        | .ok (st, count) =>
          transpose_matrix_loop rows cols fuel0 fuel
            ⟨st.matrix, .sub nswaps count :: st.trace⟩ (usub nswaps count) index
    else .ok (st, nswaps)

/-- The function `transpose_matrix(rows, cols, matrix)`. Returns the machine left behind
and the value of the local `nswaps` when the function returns. -/
def transpose_matrix (fuel rows cols : Nat) (matrix : List Nat) :
    Except Fault (Machine × Nat) :=
  let nswaps := umul rows cols
  match gcd fuel (usub rows 1) (usub cols 1) with
  | .error e => .error e
  | .ok g =>
    let amount := uadd g 1
    let st : Machine := ⟨matrix, [.sub nswaps amount]⟩
    let nswaps := usub nswaps amount
    if nswaps ≠ 0 then
      match seed_loop rows cols fuel st 1 with
      | .error e => .error e
      | .ok (st, index) =>
        match transpose_cycle fuel rows cols st index with
        | .error e => .error e
        | .ok (st, count) =>
          transpose_matrix_loop rows cols fuel fuel
            ⟨st.matrix, .sub nswaps count :: st.trace⟩ (usub nswaps count) index
    else .ok (st, nswaps)

/-- Largest value of the C type `unsigned` (32-bit, as on the 64-bit platforms above). -/
def UINT_MAX : Nat := 4294967295

/-- The loop of `count_digits`: `while (value /= 10) { ++result; }`, `result` being an
`unsigned`. -/
def count_digits_loop : Nat → Nat → Nat → Except Fault Nat
  | 0, _, _ => .error .outOfFuel
  | fuel + 1, value, result =>
    let value := value / 10
    if value ≠ 0 then
      count_digits_loop fuel value ((result + 1) % (UINT_MAX + 1))
    else .ok result

/-- The function `count_digits(value)`. -/
def count_digits (fuel value : Nat) : Except Fault Nat :=
  count_digits_loop fuel value 1

/-- The loop `for (unsigned i = 0; i < size; ++i)` of `print_matrix`. The counter `i` is
an `unsigned` and wraps at `UINT_MAX + 1`. What is printed is recorded as the list of the
values, each with the flag that a newline (rather than two spaces) follows it. -/
def print_matrix_loop (cols size : Nat) (matrix : List Nat) :
    Nat → Nat → List (Nat × Bool) → Except Fault (List (Nat × Bool))
  | 0, _, _ => .error .outOfFuel
  | fuel + 1, i, out =>
    if i < size then
      match matrix[i]? with
      | none => .error .outOfBounds
      | some value =>
        let newline := decide (0 = ((i + 1) % (UINT_MAX + 1)) % cols)
        print_matrix_loop cols size matrix fuel ((i + 1) % (UINT_MAX + 1))
          (out ++ [(value, newline)])
    else .ok out

/-- The function `print_matrix(rows, cols, matrix)`; the width of the printed fields and
the closing newline are left out. As in `transpose_index`, `cols` is not zero where the
function is called. -/
def print_matrix (fuel rows cols : Nat) (matrix : List Nat) :
    Except Fault (List (Nat × Bool)) :=
  let size := umul rows cols
  match count_digits fuel size with
  | .error e => .error e
  | .ok ndigits =>
    if ndigits ≤ 20 then print_matrix_loop cols size matrix fuel 0 []
    else .error .assertFailed

/-- How a run of `main` ends once its two arguments have been parsed. -/
inductive MainOutcome where
  /-- The call `error_and_exit` made because `rows × columns` would exceed `ULONG_MAX`. -/
  | overflow_exit
  /-- The call `error_and_exit` made because `calloc` returned a null pointer. -/
  | alloc_exit
  /-- The call of `print_matrix` before the transposition did not return. -/
  | print_before_fault (e : Fault)
  /-- The function `transpose_matrix` was called and did not return. -/
  | transpose_fault (e : Fault)
  /-- The function `transpose_matrix` returned and the call of `print_matrix` after it did
  not. -/
  | print_after_fault (st : Machine) (e : Fault)
  /-- The function `main` returned `0`, having printed `before`, transposed, and printed
  `after`. -/
  | finished (before : List (Nat × Bool)) (st : Machine) (after : List (Nat × Bool))

/-- The run of `main` got as far as calling `transpose_matrix`. -/
def MainOutcome.reached_transpose : MainOutcome → Prop
  | MainOutcome.overflow_exit => False
  | MainOutcome.alloc_exit => False
  | MainOutcome.print_before_fault _ => False
  | MainOutcome.transpose_fault _ => True
  | MainOutcome.print_after_fault _ _ => True
  | MainOutcome.finished _ _ _ => True

/-- The function `main` from the point where `read_ul` has returned `rows` and `cols`, both
non-zero. Whether `calloc` succeeds is the argument `calloc_ok`; the buffer is filled with
`matrix[n] = n + 1`; of the output only what `print_matrix` prints is kept. -/
def main (fuel rows cols : Nat) (calloc_ok : Bool) : MainOutcome :=
  if rows > ULONG_MAX / cols then MainOutcome.overflow_exit
  else if calloc_ok = false then MainOutcome.alloc_exit
  else
    let matrix := (List.range (umul rows cols)).map (fun n => uadd n 1)
    match print_matrix fuel rows cols matrix with
    | .error e => MainOutcome.print_before_fault e
    | .ok before =>
      match transpose_matrix fuel rows cols matrix with
      | .error e => MainOutcome.transpose_fault e
      | .ok (st, _) =>
        match print_matrix fuel cols rows st.matrix with
        | .error e => MainOutcome.print_after_fault st e
        | .ok after => MainOutcome.finished before st after

/-! ## Vocabulary of the statements and proofs -/

/-- The map `f` sends the indices below `n` to indices below `n`, injectively. -/
structure PermOn (f : Nat → Nat) (n : Nat) : Prop where
  maps : ∀ i, i < n → f i < n
  inj : ∀ i j, i < n → j < n → f i = f j → i = j

/-- Index `i` is reached from `s` by iterating `f`. -/
def OnOrbit (f : Nat → Nat) (s i : Nat) : Prop := ∃ k, f^[k] s = i

/-- The indices written so far, most recent first. -/
def writes (tr : List Event) : List Nat :=
  tr.filterMap (fun e => match e with
    | Event.write i => some i
    | _ => none)

/-- The write events of the first `t` iterations of the rotation started at `s`,
most recent first. -/
def cycleWrites (σ : Nat → Nat) (s t : Nat) : List Event :=
  ((List.range t).map (fun u => Event.write (σ^[u + 1] s))).reverse

/-- State of the rotation started at `s` on the buffer `M0` after `t` iterations. -/
structure CycleInv (σ : Nat → Nat) (n s : Nat) (M0 : List Nat) (tr0 : List Event)
    (t : Nat) (st : Machine) : Prop where
  length : st.matrix.length = n
  moved : ∀ u, 0 < u → u ≤ t → st.matrix[σ^[u] s]? = M0[σ^[u - 1] s]?
  kept : ∀ j, (∀ u, 0 < u → u ≤ t → j ≠ σ^[u] s) → st.matrix[j]? = M0[j]?
  trace : st.trace = cycleWrites σ s t ++ tr0

/-- The flat index of the `t`-th point of the diagonal path. -/
def diagIndex (rows cols t : Nat) : Nat :=
  (t * ((rows - 1) / Nat.gcd (rows - 1) (cols - 1))) * cols
    + t * ((cols - 1) / Nat.gcd (rows - 1) (cols - 1))

/-- Index `i` is a non-fixed index below `n` whose cycle has a member at most `k`. -/
def Done (σ : Nat → Nat) (n k i : Nat) : Prop :=
  i < n ∧ σ i ≠ i ∧ ∃ j, σ^[j] i ≤ k

/-- What a recorded event has to satisfy in a run on valid input. -/
def EventOK (σ : Nat → Nat) (n : Nat) : Event → Prop
  | Event.sub nswaps amount => amount ≤ nswaps
  | Event.skip _ => False
  | Event.probe index => index + 1 < n
  | Event.rotate start => start + 1 < n ∧ σ start ≠ start
  | Event.write dest => dest < n ∧ σ dest ≠ dest

/-- The non-fixed indices below `n`. -/
def nonfixed (σ : Nat → Nat) (n : Nat) : Finset Nat :=
  (Finset.range n).filter (fun i => σ i ≠ i)

/-- State of `transpose_matrix` at the head of its `while (nswaps)` loop, the search
index being `k` and `m` the buffer the caller passed. -/
structure MainInv (σ : Nat → Nat) (n : Nat) (m : List Nat) (k : Nat) (st : Machine)
    (nswaps : Nat) : Prop where
  length : st.matrix.length = n
  moved : ∀ i, Done σ n k i → st.matrix[σ i]? = m[i]?
  kept : ∀ i, ¬ Done σ n k i → st.matrix[i]? = m[i]?
  nodup : (writes st.trace).Nodup
  mem : ∀ i, i ∈ writes st.trace ↔ Done σ n k i
  count : nswaps + (writes st.trace).length = (nonfixed σ n).card
  events : ∀ e, e ∈ st.trace → EventOK σ n e

/-! ## Exact arithmetic below `ULONG_MAX` -/

theorem wrap_of_le {n : Nat} (h : n ≤ ULONG_MAX) : wrap n = n :=
  Nat.mod_eq_of_lt (Nat.lt_succ_of_le h)

theorem uadd_of_le {a b : Nat} (h : a + b ≤ ULONG_MAX) : uadd a b = a + b :=
  wrap_of_le h

theorem umul_of_le {a b : Nat} (h : a * b ≤ ULONG_MAX) : umul a b = a * b :=
  wrap_of_le h

theorem usub_of_le {a b : Nat} (hb : b ≤ a) (ha : a ≤ ULONG_MAX) : usub a b = a - b := by
  unfold usub
  rw [wrap_of_le (le_trans hb ha)]
  unfold wrap
  have h1 : a + (ULONG_MAX + 1 - b) = (a - b) + (ULONG_MAX + 1) := by omega
  rw [h1, Nat.add_mod_right]
  exact Nat.mod_eq_of_lt (by omega)

/-- Row and column of a flat index: the exact target index stays inside the matrix. -/
theorem exact_index_lt {rows cols i : Nat} (hi : i < rows * cols) :
    (i % cols) * rows + i / cols < rows * cols := by
  have hc : 0 < cols := by
    rcases Nat.eq_zero_or_pos cols with h | h
    · subst h; simp at hi
    · exact h
  have h1 : i / cols < rows := by
    rw [Nat.div_lt_iff_lt_mul hc]; exact hi
  have h2 : i % cols < cols := Nat.mod_lt _ hc
  have h3 : (i % cols) * rows + rows ≤ cols * rows := by
    have : (i % cols + 1) * rows ≤ cols * rows := Nat.mul_le_mul_right _ h2
    rw [Nat.add_mul, Nat.one_mul] at this
    exact this
  rw [Nat.mul_comm rows cols]
  omega

theorem transpose_index_exact {rows cols i : Nat} (hn : rows * cols ≤ ULONG_MAX)
    (hi : i < rows * cols) :
    transpose_index rows cols i = (i % cols) * rows + i / cols := by
  have hlt := exact_index_lt hi
  have hdm : cols * (i / cols) + i % cols = i := Nat.div_add_mod i cols
  have h1 : i / cols * cols ≤ i := Nat.div_mul_le_self i cols
  have h2 : usub i (umul (i / cols) cols) = i % cols := by
    rw [umul_of_le (by omega), usub_of_le h1 (by omega)]
    rw [Nat.mul_comm] at hdm
    omega
  have h3 : i % cols * rows ≤ ULONG_MAX := by
    have := Nat.le_add_right (i % cols * rows) (i / cols)
    omega
  unfold transpose_index
  simp only [h2]
  rw [umul_of_le h3, uadd_of_le (by omega)]

theorem transpose_index_lt {rows cols i : Nat} (hn : rows * cols ≤ ULONG_MAX)
    (hi : i < rows * cols) : transpose_index rows cols i < rows * cols := by
  rw [transpose_index_exact hn hi]; exact exact_index_lt hi

/-- Mapping with the dimensions swapped undoes the mapping. -/
theorem transpose_index_inv {rows cols i : Nat} (hn : rows * cols ≤ ULONG_MAX)
    (hi : i < rows * cols) :
    transpose_index cols rows (transpose_index rows cols i) = i := by
  have hc : 0 < cols := by
    rcases Nat.eq_zero_or_pos cols with h | h
    · subst h; simp at hi
    · exact h
  have hr : 0 < rows := by
    rcases Nat.eq_zero_or_pos rows with h | h
    · subst h; simp at hi
    · exact h
  have h1 : i / cols < rows := by
    rw [Nat.div_lt_iff_lt_mul hc]; exact hi
  have hlt := transpose_index_lt hn hi
  rw [Nat.mul_comm] at hn hlt
  rw [transpose_index_exact hn hlt, transpose_index_exact (by rwa [Nat.mul_comm]) hi]
  have e1 : (i % cols * rows + i / cols) % rows = i / cols := by
    rw [Nat.add_comm, Nat.add_mul_mod_self_right, Nat.mod_eq_of_lt h1]
  have e2 : (i % cols * rows + i / cols) / rows = i % cols := by
    rw [Nat.add_comm, Nat.add_mul_div_right _ _ hr, Nat.div_eq_of_lt h1, Nat.zero_add]
  rw [e1, e2, Nat.mul_comm]
  exact Nat.div_add_mod i cols

theorem transpose_index_injOn {rows cols i j : Nat} (hn : rows * cols ≤ ULONG_MAX)
    (hi : i < rows * cols) (hj : j < rows * cols)
    (h : transpose_index rows cols i = transpose_index rows cols j) : i = j := by
  rw [← transpose_index_inv hn hi, ← transpose_index_inv hn hj, h]

/-! ## Orbits of a map that permutes the indices below `n` -/

section Orbits

variable {f : Nat → Nat} {n : Nat}

theorem PermOn.iterate_lt (h : PermOn f n) {i : Nat} (hi : i < n) (k : Nat) :
    f^[k] i < n := by
  induction k with
  | zero => simpa using hi
  | succ k ih => rw [Function.iterate_succ_apply']; exact h.maps _ ih

theorem PermOn.iterate_inj (h : PermOn f n) {i j : Nat} (hi : i < n) (hj : j < n) (k : Nat)
    (he : f^[k] i = f^[k] j) : i = j := by
  induction k with
  | zero => simpa using he
  | succ k ih =>
    rw [Function.iterate_succ_apply', Function.iterate_succ_apply'] at he
    exact ih (h.inj _ _ (h.iterate_lt hi k) (h.iterate_lt hj k) he)

theorem PermOn.exists_period (h : PermOn f n) {i : Nat} (hi : i < n) :
    ∃ p, 0 < p ∧ p ≤ n ∧ f^[p] i = i := by
  have hcard : (Finset.range n).card < (Finset.range (n + 1)).card := by simp
  obtain ⟨x, hx, y, hy, hxy, he⟩ :=
    Finset.exists_ne_map_eq_of_card_lt_of_maps_to hcard
      (fun k _ => Finset.mem_range.mpr (h.iterate_lt hi k))
  have key : ∀ a b, a < b → b < n + 1 → f^[a] i = f^[b] i → ∃ p, 0 < p ∧ p ≤ n ∧ f^[p] i = i := by
    intro a b hab hb hab'
    refine ⟨b - a, by omega, by omega, ?_⟩
    have hsplit : f^[b] i = f^[a] (f^[b - a] i) := by
      rw [← Function.iterate_add_apply]; congr 1; omega
    rw [hsplit] at hab'
    exact (h.iterate_inj hi (h.iterate_lt hi _) a hab').symm
  rw [Finset.mem_range] at hx hy
  rcases Nat.lt_or_gt_of_ne hxy with hlt | hlt
  · exact key x y hlt hy he
  · exact key y x hlt hx he.symm

theorem PermOn.mem_periodicPts (h : PermOn f n) {i : Nat} (hi : i < n) :
    i ∈ Function.periodicPts f := by
  obtain ⟨p, hp, _, hpi⟩ := h.exists_period hi
  exact Function.mk_mem_periodicPts hp hpi

theorem PermOn.minimalPeriod_pos (h : PermOn f n) {i : Nat} (hi : i < n) :
    0 < Function.minimalPeriod f i :=
  Function.minimalPeriod_pos_of_mem_periodicPts (h.mem_periodicPts hi)

theorem PermOn.minimalPeriod_le (h : PermOn f n) {i : Nat} (hi : i < n) :
    Function.minimalPeriod f i ≤ n := by
  obtain ⟨p, hp, hpn, hpi⟩ := h.exists_period hi
  exact le_trans (Function.IsPeriodicPt.minimalPeriod_le hp hpi) hpn

/-- Two iterates with different exponents in `1 .. period` differ. -/
theorem iterate_ne_of_lt_of_le_period {s u v : Nat} (hu : 0 < u) (huv : u < v)
    (hv : v ≤ Function.minimalPeriod f s) : f^[u] s ≠ f^[v] s := by
  intro he
  rcases Nat.lt_or_eq_of_le hv with hlt | heq
  · have := (Function.iterate_eq_iterate_iff_of_lt_minimalPeriod (lt_trans huv hlt) hlt).mp he
    omega
  · rw [heq, Function.iterate_minimalPeriod] at he
    have h0 : f^[u] s = f^[0] s := by simpa using he
    have := (Function.iterate_eq_iterate_iff_of_lt_minimalPeriod (by omega) (by omega)).mp h0
    omega

theorem OnOrbit.refl (s : Nat) : OnOrbit f s s := ⟨0, rfl⟩

theorem OnOrbit.lt (h : PermOn f n) {s i : Nat} (hs : s < n) (ho : OnOrbit f s i) : i < n := by
  obtain ⟨k, rfl⟩ := ho; exact h.iterate_lt hs k

theorem OnOrbit.trans {s i j : Nat} (h1 : OnOrbit f s i) (h2 : OnOrbit f i j) :
    OnOrbit f s j := by
  obtain ⟨a, rfl⟩ := h1
  obtain ⟨b, rfl⟩ := h2
  exact ⟨b + a, Function.iterate_add_apply f b a s⟩

theorem OnOrbit.symm (h : PermOn f n) {s i : Nat} (hs : s < n) (ho : OnOrbit f s i) :
    OnOrbit f i s := by
  obtain ⟨k, rfl⟩ := ho
  obtain ⟨p, hp, _, hpi⟩ := h.exists_period hs
  refine ⟨p * k - k, ?_⟩
  rw [← Function.iterate_add_apply]
  have hk : p * k - k + k = p * k := by
    have : k ≤ p * k := Nat.le_mul_of_pos_left k hp
    rw [Nat.sub_add_cancel this]
  rw [hk]
  exact (Function.IsPeriodicPt.mul_const hpi k)

theorem OnOrbit.apply {s i : Nat} (ho : OnOrbit f s i) : OnOrbit f s (f i) := by
  obtain ⟨k, rfl⟩ := ho
  exact ⟨k + 1, Function.iterate_succ_apply' f k s⟩

/-- The predecessor of an orbit member is an orbit member. -/
theorem OnOrbit.of_step (h : PermOn f n) {s i : Nat} (hs : s < n) (hi : i < n)
    (ho : OnOrbit f s (f i)) : OnOrbit f s i := by
  have h1 : OnOrbit f (f i) s := ho.symm h hs
  have h2 : OnOrbit f i s := OnOrbit.trans (OnOrbit.apply (OnOrbit.refl i)) h1
  exact h2.symm h hi

/-- A fixed point is alone on its orbit. -/
theorem OnOrbit.eq_of_fixed {s i : Nat} (hfix : f s = s) (ho : OnOrbit f s i) : i = s := by
  obtain ⟨k, rfl⟩ := ho
  exact Function.iterate_fixed hfix k

/-- Along an orbit either every index is a fixed point or none is. -/
theorem OnOrbit.not_fixed (h : PermOn f n) {s i : Nat} (hs : s < n) (hne : f s ≠ s)
    (ho : OnOrbit f s i) : f i ≠ i := by
  intro hfix
  have := OnOrbit.eq_of_fixed hfix (ho.symm h hs)
  subst this
  exact hne hfix

end Orbits

/-! ## The index mapping permutes the flat indices -/

theorem permOn_transpose_index {rows cols : Nat} (hn : rows * cols ≤ ULONG_MAX) :
    PermOn (transpose_index rows cols) (rows * cols) :=
  ⟨fun _ hi => transpose_index_lt hn hi, fun _ _ hi hj he => transpose_index_injOn hn hi hj he⟩

/-! ## The cycle classifier -/

theorem should_transpose_cycle_loop_spec {rows cols n s : Nat}
    (hperm : PermOn (transpose_index rows cols) n) (hn : n ≤ ULONG_MAX) (hs : s < n) :
    ∀ fuel t, t < Function.minimalPeriod (transpose_index rows cols) s →
      Function.minimalPeriod (transpose_index rows cols) s ≤ fuel + t →
      (∀ u, 0 < u → u ≤ t → s < (transpose_index rows cols)^[u] s) →
      ∃ T, T < Function.minimalPeriod (transpose_index rows cols) s ∧
        (∀ u, 0 < u → u ≤ T → s < (transpose_index rows cols)^[u] s) ∧
        (transpose_index rows cols)^[T + 1] s ≤ s ∧
        should_transpose_cycle_loop rows cols s fuel t ((transpose_index rows cols)^[t] s)
          = .ok (T, (transpose_index rows cols)^[T + 1] s) := by
  intro fuel
  induction fuel with
  | zero => intro t ht hf _; omega
  | succ fuel ih =>
    intro t ht hf hgt
    have hPn := hperm.minimalPeriod_le hs
    unfold should_transpose_cycle_loop
    simp only [← Function.iterate_succ_apply' (transpose_index rows cols) t s]
    by_cases hc : (transpose_index rows cols)^[t + 1] s > s
    · rw [if_pos hc]
      have hne : t + 1 ≠ Function.minimalPeriod (transpose_index rows cols) s := by
        intro he
        rw [he, Function.iterate_minimalPeriod] at hc
        exact lt_irrefl _ hc
      have hadd : uadd t 1 = t + 1 := uadd_of_le (by omega)
      rw [hadd]
      refine ih (t + 1) (by omega) (by omega) ?_
      intro u hu hut
      rcases Nat.lt_or_eq_of_le hut with h1 | h1
      · exact hgt u hu (by omega)
      · rw [h1]; exact hc
    · rw [if_neg hc]
      exact ⟨t, ht, hgt, not_lt.mp hc, rfl⟩

/-- The classifier returns, and it accepts `start` exactly when `start` is not a fixed
point and no index on its cycle is smaller. -/
theorem should_transpose_cycle_spec {rows cols n s fuel : Nat}
    (hperm : PermOn (transpose_index rows cols) n) (hn : n ≤ ULONG_MAX) (hs : s < n)
    (hfuel : n ≤ fuel) :
    ∃ b, should_transpose_cycle fuel rows cols s = .ok b ∧
      (b = true ↔ (transpose_index rows cols s ≠ s ∧
        ∀ j, s ≤ (transpose_index rows cols)^[j] s)) := by
  have hPn := hperm.minimalPeriod_le hs
  have hP0 := hperm.minimalPeriod_pos hs
  obtain ⟨T, hT, hgt, hle, hrun⟩ :=
    should_transpose_cycle_loop_spec hperm hn hs fuel 0 hP0 (by omega) (by intro u h1 h2; omega)
  simp only [Function.iterate_zero, id_eq] at hrun
  refine ⟨_, by unfold should_transpose_cycle; rw [hrun], ?_⟩
  simp only [Bool.and_eq_true, beq_iff_eq, bne_iff_ne, ne_eq]
  constructor
  · rintro ⟨he, hT0⟩
    have hdvd : Function.minimalPeriod (transpose_index rows cols) s ∣ T + 1 :=
      Function.IsPeriodicPt.minimalPeriod_dvd he
    have hPT : Function.minimalPeriod (transpose_index rows cols) s = T + 1 :=
      le_antisymm (Nat.le_of_dvd (by omega) hdvd) hT
    constructor
    · intro hfix
      have := Function.minimalPeriod_eq_one_iff_isFixedPt.mpr hfix
      omega
    · intro j
      rw [← Function.iterate_mod_minimalPeriod_eq]
      have hlt : j % Function.minimalPeriod (transpose_index rows cols) s < T + 1 := by
        rw [← hPT]; exact Nat.mod_lt _ hP0
      rcases Nat.eq_zero_or_pos (j % Function.minimalPeriod (transpose_index rows cols) s)
        with h0 | h0
      · rw [h0]; simp
      · exact le_of_lt (hgt _ h0 (by omega))
  · rintro ⟨hne, hall⟩
    refine ⟨le_antisymm hle (hall _), ?_⟩
    intro hT0
    subst hT0
    have h1 : transpose_index rows cols s ≤ s := by simpa using hle
    have h2 : s ≤ transpose_index rows cols s := by simpa using hall 1
    exact hne (le_antisymm h1 h2)

/-! ## Rotation of one cycle -/

theorem cycleWrites_succ (σ : Nat → Nat) (s t : Nat) :
    cycleWrites σ s (t + 1) = Event.write (σ^[t + 1] s) :: cycleWrites σ s t := by
  unfold cycleWrites
  rw [List.range_succ, List.map_append, List.map_singleton, List.reverse_concat]

theorem CycleInv.advance {σ : Nat → Nat} {n s t prev : Nat} {M0 : List Nat} {tr0 : List Event}
    {st : Machine} (hperm : PermOn σ n) (hs : s < n) (hinv : CycleInv σ n s M0 tr0 t st)
    (ht : t < Function.minimalPeriod σ s) (hprev : M0[σ^[t] s]? = some prev) :
    CycleInv σ n s M0 tr0 (t + 1)
      ⟨st.matrix.set (σ^[t + 1] s) prev, Event.write (σ^[t + 1] s) :: st.trace⟩ := by
  have hto : σ^[t + 1] s < st.matrix.length := by
    rw [hinv.length]; exact hperm.iterate_lt hs _
  refine ⟨by simp [hinv.length], ?_, ?_, ?_⟩
  · intro u hu hut
    rcases Nat.lt_or_eq_of_le hut with h1 | h1
    · have hne : σ^[t + 1] s ≠ σ^[u] s :=
        (iterate_ne_of_lt_of_le_period hu h1 ht).symm
      show (st.matrix.set (σ^[t + 1] s) prev)[σ^[u] s]? = _
      rw [List.getElem?_set_ne hne]
      exact hinv.moved u hu (by omega)
    · subst h1
      show (st.matrix.set (σ^[t + 1] s) prev)[σ^[t + 1] s]? = _
      rw [List.getElem?_set_self hto]
      simpa using hprev.symm
  · intro j hj
    have hne : σ^[t + 1] s ≠ j := fun h => hj (t + 1) (by omega) (le_refl _) h.symm
    show (st.matrix.set (σ^[t + 1] s) prev)[j]? = _
    rw [List.getElem?_set_ne hne]
    exact hinv.kept j (fun u hu hut => hj u hu (by omega))
  · show Event.write (σ^[t + 1] s) :: st.trace = _
    rw [cycleWrites_succ, hinv.trace, List.cons_append]

theorem transpose_cycle_loop_spec {rows cols n s : Nat}
    (hperm : PermOn (transpose_index rows cols) n) (hn : n ≤ ULONG_MAX) (hs : s < n)
    (M0 : List Nat) (tr0 : List Event) (hlen : M0.length = n) :
    ∀ fuel t (st : Machine) (prev : Nat),
      t < Function.minimalPeriod (transpose_index rows cols) s →
      Function.minimalPeriod (transpose_index rows cols) s ≤ fuel + t →
      CycleInv (transpose_index rows cols) n s M0 tr0 t st →
      M0[(transpose_index rows cols)^[t] s]? = some prev →
      ∃ st', transpose_cycle_loop rows cols s fuel st t ((transpose_index rows cols)^[t] s) prev
          = .ok (st', Function.minimalPeriod (transpose_index rows cols) s) ∧
        CycleInv (transpose_index rows cols) n s M0 tr0
          (Function.minimalPeriod (transpose_index rows cols) s) st' := by
  intro fuel
  induction fuel with
  | zero => intro t _ _ ht hf; omega
  | succ fuel ih =>
    intro t st prev ht hf hinv hprev
    have hPn := hperm.minimalPeriod_le hs
    have hstep := hinv.advance hperm hs ht hprev
    have hto : (transpose_index rows cols)^[t + 1] s < n := hperm.iterate_lt hs _
    have hb : (transpose_index rows cols)^[t + 1] s < M0.length := by rw [hlen]; exact hto
    obtain ⟨temp, htemp⟩ : ∃ temp, M0[(transpose_index rows cols)^[t + 1] s]? = some temp :=
      ⟨M0[(transpose_index rows cols)^[t + 1] s], List.getElem?_eq_getElem hb⟩
    have hread : st.matrix[(transpose_index rows cols)^[t + 1] s]? = some temp := by
      rw [hinv.kept _ (fun u hu hut => (iterate_ne_of_lt_of_le_period hu (by omega) ht).symm)]
      exact htemp
    have hadd : uadd t 1 = t + 1 := uadd_of_le (by omega)
    unfold transpose_cycle_loop
    simp only [← Function.iterate_succ_apply' (transpose_index rows cols) t s, hread, hadd]
    by_cases hc : (transpose_index rows cols)^[t + 1] s = s
    · rw [if_pos hc]
      have hdvd : Function.minimalPeriod (transpose_index rows cols) s ∣ t + 1 :=
        Function.IsPeriodicPt.minimalPeriod_dvd hc
      have hPT : Function.minimalPeriod (transpose_index rows cols) s = t + 1 :=
        le_antisymm (Nat.le_of_dvd (by omega) hdvd) ht
      rw [hPT]
      exact ⟨_, rfl, hstep⟩
    · rw [if_neg hc]
      have hne : t + 1 ≠ Function.minimalPeriod (transpose_index rows cols) s := by
        intro he
        rw [he, Function.iterate_minimalPeriod] at hc
        exact hc rfl
      exact ih (t + 1) _ _ (by omega) (by omega) hstep htemp

/-- The function `transpose_cycle` started at a non-fixed index returns the length of the
cycle of `start`, having run the rotation to its end. -/
theorem transpose_cycle_spec {rows cols n s fuel : Nat}
    (hperm : PermOn (transpose_index rows cols) n) (hn : n ≤ ULONG_MAX) (hs : s < n)
    (st : Machine) (hlen : st.matrix.length = n) (hfuel : n ≤ fuel)
    (hne : transpose_index rows cols s ≠ s) :
    ∃ st', transpose_cycle fuel rows cols st s
        = .ok (st', Function.minimalPeriod (transpose_index rows cols) s) ∧
      1 < Function.minimalPeriod (transpose_index rows cols) s ∧
      Function.minimalPeriod (transpose_index rows cols) s ≤ n ∧
      CycleInv (transpose_index rows cols) n s st.matrix (Event.rotate s :: st.trace)
        (Function.minimalPeriod (transpose_index rows cols) s) st' := by
  have hPn := hperm.minimalPeriod_le hs
  have hP0 := hperm.minimalPeriod_pos hs
  have hP1 : 1 < Function.minimalPeriod (transpose_index rows cols) s := by
    rcases Nat.lt_or_eq_of_le (Nat.succ_le_of_lt hP0) with h | h
    · exact h
    · exact absurd (Function.minimalPeriod_eq_one_iff_isFixedPt.mp h.symm) hne
  have hb : s < st.matrix.length := by rw [hlen]; exact hs
  obtain ⟨prev, hprev⟩ : ∃ prev, st.matrix[s]? = some prev :=
    ⟨st.matrix[s], List.getElem?_eq_getElem hb⟩
  have hinv0 : CycleInv (transpose_index rows cols) n s st.matrix (Event.rotate s :: st.trace) 0
      ⟨st.matrix, Event.rotate s :: st.trace⟩ :=
    ⟨hlen, fun u h1 h2 => by omega, fun _ _ => rfl, by simp [cycleWrites]⟩
  obtain ⟨st', hrun, hinv⟩ :=
    transpose_cycle_loop_spec hperm hn hs st.matrix (Event.rotate s :: st.trace) hlen fuel 0 _ prev
      hP0 (by omega) hinv0 (by simpa using hprev)
  simp only [Function.iterate_zero, id_eq] at hrun
  refine ⟨st', ?_, hP1, hPn, hinv⟩
  unfold transpose_cycle
  simp only [hprev, hrun, if_pos hP1]

theorem writes_append (a b : List Event) : writes (a ++ b) = writes a ++ writes b := by
  unfold writes; exact List.filterMap_append _ _ _

theorem writes_cycleWrites (σ : Nat → Nat) (s t : Nat) :
    writes (cycleWrites σ s t) = ((List.range t).map (fun u => σ^[u + 1] s)).reverse := by
  induction t with
  | zero => rfl
  | succ t ih =>
    rw [cycleWrites_succ, List.range_succ, List.map_append, List.map_singleton,
      List.reverse_concat, ← ih]
    rfl

section FullCycle

variable {σ : Nat → Nat} {n s : Nat}

theorem mem_writes_cycleWrites_iff (hperm : PermOn σ n) (hs : s < n) (i : Nat) :
    i ∈ writes (cycleWrites σ s (Function.minimalPeriod σ s)) ↔ OnOrbit σ s i := by
  have hP0 := hperm.minimalPeriod_pos hs
  rw [writes_cycleWrites, List.mem_reverse, List.mem_map]
  constructor
  · rintro ⟨u, _, rfl⟩
    exact ⟨u + 1, rfl⟩
  · rintro ⟨k, rfl⟩
    refine ⟨(k + (Function.minimalPeriod σ s - 1)) % Function.minimalPeriod σ s,
      List.mem_range.mpr (Nat.mod_lt _ hP0), ?_⟩
    rw [Function.iterate_succ_apply', Function.iterate_mod_minimalPeriod_eq,
      ← Function.iterate_succ_apply' σ]
    have : (k + (Function.minimalPeriod σ s - 1)).succ = k + Function.minimalPeriod σ s := by
      omega
    rw [this, Function.iterate_add_minimalPeriod_eq]

theorem nodup_writes_cycleWrites (σ : Nat → Nat) (s : Nat) :
    (writes (cycleWrites σ s (Function.minimalPeriod σ s))).Nodup := by
  rw [writes_cycleWrites, List.nodup_reverse]
  refine (List.nodup_range _).map_on ?_
  intro a ha b hb he
  rw [List.mem_range] at ha hb
  by_contra hab
  rcases Nat.lt_or_gt_of_ne hab with h | h
  · exact iterate_ne_of_lt_of_le_period (Nat.succ_pos a) (by omega) (by omega) he
  · exact iterate_ne_of_lt_of_le_period (Nat.succ_pos b) (by omega) (by omega) he.symm

theorem length_writes_cycleWrites (σ : Nat → Nat) (s t : Nat) :
    (writes (cycleWrites σ s t)).length = t := by
  rw [writes_cycleWrites]; simp

/-- After the full rotation every value on the cycle has moved one step along it. -/
theorem CycleInv.moved_orbit {M0 : List Nat} {tr0 : List Event} {st : Machine}
    (hperm : PermOn σ n) (hs : s < n)
    (hinv : CycleInv σ n s M0 tr0 (Function.minimalPeriod σ s) st) {i : Nat}
    (ho : OnOrbit σ s i) : st.matrix[σ i]? = M0[i]? := by
  have hP0 := hperm.minimalPeriod_pos hs
  obtain ⟨k, rfl⟩ := ho
  have h := hinv.moved (k % Function.minimalPeriod σ s + 1) (Nat.succ_pos _)
    (Nat.succ_le_of_lt (Nat.mod_lt _ hP0))
  rw [Function.iterate_succ_apply', Nat.add_sub_cancel,
    Function.iterate_mod_minimalPeriod_eq] at h
  exact h

/-- The full rotation leaves every slot off the cycle alone. -/
theorem CycleInv.kept_off {M0 : List Nat} {tr0 : List Event} {st : Machine} {t : Nat}
    (hinv : CycleInv σ n s M0 tr0 t st) {j : Nat}
    (ho : ¬ OnOrbit σ s j) : st.matrix[j]? = M0[j]? :=
  hinv.kept j (fun u _ _ he => ho ⟨u, he.symm⟩)

end FullCycle

/-! ## The program's `gcd` and the number of fixed points -/

theorem gcd_loop_spec : ∀ fuel a b, b < fuel → gcd_loop fuel a b = .ok (Nat.gcd a b) := by
  intro fuel
  induction fuel with
  | zero => intro a b h; omega
  | succ fuel ih =>
    intro a b h
    unfold gcd_loop
    by_cases hb : b = 0
    · subst hb; simp
    · rw [if_pos hb]
      have hlt : a % b < b := Nat.mod_lt _ (Nat.pos_of_ne_zero hb)
      simp only []
      rw [ih b (a % b) (by omega), Nat.gcd_comm b (a % b), ← Nat.gcd_rec, Nat.gcd_comm]

theorem gcd_spec {fuel a b : Nat} (h : b < fuel) : gcd fuel a b = .ok (Nat.gcd a b) :=
  gcd_loop_spec fuel a b h

/-- An index is a fixed point exactly when its row and column lie on the diagonal path. -/
theorem fixed_iff {rows cols i : Nat} (hn : rows * cols ≤ ULONG_MAX) (hi : i < rows * cols) :
    transpose_index rows cols i = i ↔ (i % cols) * (rows - 1) = (i / cols) * (cols - 1) := by
  rw [transpose_index_exact hn hi]
  have hc : 0 < cols := by
    rcases Nat.eq_zero_or_pos cols with h | h
    · subst h; simp at hi
    · exact h
  have hr : 0 < rows := by
    rcases Nat.eq_zero_or_pos rows with h | h
    · subst h; simp at hi
    · exact h
  obtain ⟨a, rfl⟩ : ∃ a, rows = a + 1 := ⟨rows - 1, by omega⟩
  obtain ⟨b, rfl⟩ : ∃ b, cols = b + 1 := ⟨cols - 1, by omega⟩
  simp only [Nat.add_sub_cancel]
  have hdm : (b + 1) * (i / (b + 1)) + i % (b + 1) = i := Nat.div_add_mod i (b + 1)
  have e1 : i % (b + 1) * (a + 1) = i % (b + 1) * a + i % (b + 1) := by ring
  have e2 : (b + 1) * (i / (b + 1)) = i / (b + 1) * b + i / (b + 1) := by ring
  constructor <;> intro h <;> omega

theorem diag_solve {a' b' g r c : Nat} (hco : Nat.Coprime a' b') (hb : 0 < b')
    (he : c * a' = r * b') (hc : c ≤ g * b') : ∃ t, t ≤ g ∧ r = t * a' ∧ c = t * b' := by
  have hdvd : b' ∣ c := by
    have h1 : b' ∣ c * a' := ⟨r, by rw [he, Nat.mul_comm]⟩
    exact (Nat.Coprime.dvd_mul_right hco.symm).mp h1
  obtain ⟨t, rfl⟩ := hdvd
  refine ⟨t, ?_, ?_, Nat.mul_comm _ _⟩
  · have : t * b' ≤ g * b' := by rwa [Nat.mul_comm b' t] at hc
    exact Nat.le_of_mul_le_mul_right this hb
  · have h2 : (t * a') * b' = r * b' := by
      rw [← he]; ring
    exact (Nat.eq_of_mul_eq_mul_right hb h2).symm

theorem diagIndex_div_mod {rows cols t : Nat} (hr : 1 ≤ rows) (hc : 1 ≤ cols)
    (ht : t ≤ Nat.gcd (rows - 1) (cols - 1)) :
    diagIndex rows cols t < rows * cols ∧
    diagIndex rows cols t / cols = t * ((rows - 1) / Nat.gcd (rows - 1) (cols - 1)) ∧
    diagIndex rows cols t % cols = t * ((cols - 1) / Nat.gcd (rows - 1) (cols - 1)) := by
  unfold diagIndex
  have ha : (rows - 1) / Nat.gcd (rows - 1) (cols - 1) * Nat.gcd (rows - 1) (cols - 1) = rows - 1 :=
    Nat.div_mul_cancel (Nat.gcd_dvd_left _ _)
  have hb : (cols - 1) / Nat.gcd (rows - 1) (cols - 1) * Nat.gcd (rows - 1) (cols - 1) = cols - 1 :=
    Nat.div_mul_cancel (Nat.gcd_dvd_right _ _)
  generalize (rows - 1) / Nat.gcd (rows - 1) (cols - 1) = a' at *
  generalize (cols - 1) / Nat.gcd (rows - 1) (cols - 1) = b' at *
  generalize Nat.gcd (rows - 1) (cols - 1) = g at *
  have h1 : t * b' ≤ cols - 1 := by
    rw [← hb, Nat.mul_comm b' g]; exact Nat.mul_le_mul_right _ ht
  have h2 : t * a' ≤ rows - 1 := by
    rw [← ha, Nat.mul_comm a' g]; exact Nat.mul_le_mul_right _ ht
  have h3 : t * b' < cols := by omega
  refine ⟨?_, ?_, ?_⟩
  · have h4 : t * a' * cols + cols ≤ rows * cols := by
      have : (t * a' + 1) * cols ≤ rows * cols := Nat.mul_le_mul_right _ (by omega)
      rw [Nat.add_mul, Nat.one_mul] at this
      exact this
    omega
  · rw [Nat.add_comm, Nat.add_mul_div_right _ _ (by omega), Nat.div_eq_of_lt h3, Nat.zero_add]
  · rw [Nat.add_comm, Nat.add_mul_mod_self_right, Nat.mod_eq_of_lt h3]

theorem diagIndex_fixed {rows cols t : Nat} (hr : 1 ≤ rows) (hc : 1 ≤ cols)
    (hn : rows * cols ≤ ULONG_MAX) (ht : t ≤ Nat.gcd (rows - 1) (cols - 1)) :
    transpose_index rows cols (diagIndex rows cols t) = diagIndex rows cols t := by
  obtain ⟨hlt, hdiv, hmod⟩ := diagIndex_div_mod hr hc ht
  rw [fixed_iff hn hlt, hdiv, hmod]
  have ha : (rows - 1) / Nat.gcd (rows - 1) (cols - 1) * Nat.gcd (rows - 1) (cols - 1) = rows - 1 :=
    Nat.div_mul_cancel (Nat.gcd_dvd_left _ _)
  have hb : (cols - 1) / Nat.gcd (rows - 1) (cols - 1) * Nat.gcd (rows - 1) (cols - 1) = cols - 1 :=
    Nat.div_mul_cancel (Nat.gcd_dvd_right _ _)
  have key : (cols - 1) / Nat.gcd (rows - 1) (cols - 1) * (rows - 1)
      = (rows - 1) / Nat.gcd (rows - 1) (cols - 1) * (cols - 1) := by
    calc (cols - 1) / Nat.gcd (rows - 1) (cols - 1) * (rows - 1)
        = (cols - 1) / Nat.gcd (rows - 1) (cols - 1)
            * ((rows - 1) / Nat.gcd (rows - 1) (cols - 1) * Nat.gcd (rows - 1) (cols - 1)) := by
          rw [ha]
      _ = (rows - 1) / Nat.gcd (rows - 1) (cols - 1)
            * ((cols - 1) / Nat.gcd (rows - 1) (cols - 1) * Nat.gcd (rows - 1) (cols - 1)) := by
          ring
      _ = (rows - 1) / Nat.gcd (rows - 1) (cols - 1) * (cols - 1) := by rw [hb]
  rw [Nat.mul_assoc, Nat.mul_assoc, key]

theorem diagIndex_injOn {rows cols t t' : Nat} (hr : 1 ≤ rows) (hc : 1 ≤ cols)
    (ht : t ≤ Nat.gcd (rows - 1) (cols - 1)) (ht' : t' ≤ Nat.gcd (rows - 1) (cols - 1))
    (he : diagIndex rows cols t = diagIndex rows cols t') : t = t' := by
  obtain ⟨_, hdiv, hmod⟩ := diagIndex_div_mod hr hc ht
  obtain ⟨_, hdiv', hmod'⟩ := diagIndex_div_mod hr hc ht'
  rw [he, hdiv'] at hdiv
  rw [he, hmod'] at hmod
  have ha : (rows - 1) / Nat.gcd (rows - 1) (cols - 1) * Nat.gcd (rows - 1) (cols - 1) = rows - 1 :=
    Nat.div_mul_cancel (Nat.gcd_dvd_left _ _)
  have hb : (cols - 1) / Nat.gcd (rows - 1) (cols - 1) * Nat.gcd (rows - 1) (cols - 1) = cols - 1 :=
    Nat.div_mul_cancel (Nat.gcd_dvd_right _ _)
  rcases Nat.eq_zero_or_pos ((rows - 1) / Nat.gcd (rows - 1) (cols - 1)) with h0 | h0
  · rcases Nat.eq_zero_or_pos ((cols - 1) / Nat.gcd (rows - 1) (cols - 1)) with h1 | h1
    · rw [h0, Nat.zero_mul] at ha
      rw [h1, Nat.zero_mul] at hb
      have hg : Nat.gcd (rows - 1) (cols - 1) = 0 := by rw [← ha, ← hb]; rfl
      omega
    · exact (Nat.eq_of_mul_eq_mul_right h1 hmod).symm
  · exact (Nat.eq_of_mul_eq_mul_right h0 hdiv).symm

theorem exists_diagIndex {rows cols i : Nat} (hr : 1 ≤ rows) (hc : 1 ≤ cols)
    (hn : rows * cols ≤ ULONG_MAX) (hi : i < rows * cols)
    (hfix : transpose_index rows cols i = i) :
    ∃ t, t ≤ Nat.gcd (rows - 1) (cols - 1) ∧ diagIndex rows cols t = i := by
  rw [fixed_iff hn hi] at hfix
  have ha : (rows - 1) / Nat.gcd (rows - 1) (cols - 1) * Nat.gcd (rows - 1) (cols - 1) = rows - 1 :=
    Nat.div_mul_cancel (Nat.gcd_dvd_left _ _)
  have hb : (cols - 1) / Nat.gcd (rows - 1) (cols - 1) * Nat.gcd (rows - 1) (cols - 1) = cols - 1 :=
    Nat.div_mul_cancel (Nat.gcd_dvd_right _ _)
  have hdm : cols * (i / cols) + i % cols = i := Nat.div_add_mod i cols
  have hcle : i % cols ≤ cols - 1 := by
    have := Nat.mod_lt i (show 0 < cols by omega); omega
  have hrle : i / cols ≤ rows - 1 := by
    have : i / cols < rows := by
      rw [Nat.div_lt_iff_lt_mul (by omega)]; exact hi
    omega
  have key : ∀ t, i / cols = t * ((rows - 1) / Nat.gcd (rows - 1) (cols - 1)) →
      i % cols = t * ((cols - 1) / Nat.gcd (rows - 1) (cols - 1)) → diagIndex rows cols t = i := by
    intro t h1 h2
    unfold diagIndex
    rw [← h1, ← h2, Nat.mul_comm]
    exact hdm
  rcases Nat.eq_zero_or_pos (Nat.gcd (rows - 1) (cols - 1)) with hg | hg
  · refine ⟨0, Nat.zero_le _, key 0 ?_ ?_⟩
    · rw [hg, Nat.mul_zero] at ha
      rw [Nat.zero_mul]
      exact Nat.le_zero.mp (by rw [ha]; exact hrle)
    · rw [hg, Nat.mul_zero] at hb
      rw [Nat.zero_mul]
      exact Nat.le_zero.mp (by rw [hb]; exact hcle)
  · have hco := Nat.coprime_div_gcd_div_gcd hg
    have he : i % cols * ((rows - 1) / Nat.gcd (rows - 1) (cols - 1))
        = i / cols * ((cols - 1) / Nat.gcd (rows - 1) (cols - 1)) := by
      apply Nat.eq_of_mul_eq_mul_right hg
      rw [Nat.mul_assoc, Nat.mul_assoc, ha, hb]
      exact hfix
    rcases Nat.eq_zero_or_pos ((cols - 1) / Nat.gcd (rows - 1) (cols - 1)) with h0 | h0
    · have h1 : 0 < (rows - 1) / Nat.gcd (rows - 1) (cols - 1) := by
        rw [h0] at hco
        rw [(Nat.coprime_zero_right _).mp hco]
        exact Nat.one_pos
      obtain ⟨t, htg, hc', hr'⟩ := diag_solve hco.symm h1 he.symm
        (by rw [Nat.mul_comm, ha]; exact hrle)
      exact ⟨t, htg, key t hr' hc'⟩
    · obtain ⟨t, htg, hr', hc'⟩ := diag_solve hco h0 he (by rw [Nat.mul_comm, hb]; exact hcle)
      exact ⟨t, htg, key t hr' hc'⟩

/-- The fixed points of the index mapping are counted by the gcd of the decremented
dimensions, plus one. -/
theorem card_fixed {rows cols : Nat} (hr : 1 ≤ rows) (hc : 1 ≤ cols)
    (hn : rows * cols ≤ ULONG_MAX) :
    ((Finset.range (rows * cols)).filter (fun i => transpose_index rows cols i = i)).card
      = Nat.gcd (rows - 1) (cols - 1) + 1 := by
  have himg : (Finset.range (rows * cols)).filter (fun i => transpose_index rows cols i = i)
      = (Finset.range (Nat.gcd (rows - 1) (cols - 1) + 1)).image (diagIndex rows cols) := by
    ext i
    simp only [Finset.mem_filter, Finset.mem_range, Finset.mem_image]
    constructor
    · rintro ⟨hi, hfix⟩
      obtain ⟨t, ht, rfl⟩ := exists_diagIndex hr hc hn hi hfix
      exact ⟨t, by omega, rfl⟩
    · rintro ⟨t, ht, rfl⟩
      exact ⟨(diagIndex_div_mod hr hc (by omega)).1, diagIndex_fixed hr hc hn (by omega)⟩
  rw [himg, Finset.card_image_of_injOn, Finset.card_range]
  intro t ht t' ht'
  simp only [Finset.coe_range, Set.mem_Iio] at ht ht'
  exact diagIndex_injOn hr hc (by omega) (by omega)

/-! ## Indices already handled by the search -/

section DoneLemmas

variable {σ : Nat → Nat} {n : Nat}

theorem Done.mono {k i : Nat} (h : Done σ n k i) : Done σ n (k + 1) i :=
  ⟨h.1, h.2.1, h.2.2.imp (fun _ hj => Nat.le_succ_of_le hj)⟩

/-- Nothing is handled before the search starts, index `0` being a fixed point. -/
theorem not_done_zero (hperm : PermOn σ n) (hzero : σ 0 = 0) (i : Nat) : ¬ Done σ n 0 i := by
  rintro ⟨hi, hne, j, hj⟩
  have h0 : σ^[j] i = 0 := Nat.le_zero.mp hj
  have ho : OnOrbit σ i 0 := ⟨j, h0⟩
  have := OnOrbit.eq_of_fixed hzero (ho.symm hperm hi)
  subst this
  exact hne hzero

/-- The handled set is closed under the mapping. -/
theorem Done.image (hperm : PermOn σ n) {k i : Nat} (h : Done σ n k i) : Done σ n k (σ i) := by
  obtain ⟨hi, hne, j, hj⟩ := h
  refine ⟨hperm.maps i hi, ?_, ?_⟩
  · exact (OnOrbit.apply (OnOrbit.refl i)).not_fixed hperm hi hne
  · have ho : OnOrbit σ (σ i) i := (OnOrbit.apply (OnOrbit.refl i)).symm hperm hi
    obtain ⟨a, ha⟩ := ho
    refine ⟨j + a, ?_⟩
    rw [Function.iterate_add_apply, ha]
    exact hj

/-- A cycle whose smallest member is `k + 1` has not been handled up to `k`. -/
theorem not_done_of_leader {k s i : Nat} (hs : s = k + 1) (hmin : ∀ j, s ≤ σ^[j] s)
    (ho : OnOrbit σ s i) : ¬ Done σ n k i := by
  rintro ⟨_, _, j, hj⟩
  obtain ⟨a, rfl⟩ := ho
  have := hmin (j + a)
  rw [Function.iterate_add_apply] at this
  omega

/-- Accepting the leader `k + 1` adds exactly its cycle to the handled set. -/
theorem done_succ_of_leader (hperm : PermOn σ n) {k s : Nat} (hs : s = k + 1) (hsn : s < n)
    (hne : σ s ≠ s) (i : Nat) :
    Done σ n (k + 1) i ↔ Done σ n k i ∨ OnOrbit σ s i := by
  constructor
  · rintro ⟨hi, hnei, j, hj⟩
    rcases Nat.lt_or_eq_of_le hj with h | h
    · exact Or.inl ⟨hi, hnei, j, by omega⟩
    · right
      have ho : OnOrbit σ i s := ⟨j, by rw [h, hs]⟩
      exact ho.symm hperm hi
  · rintro (h | ho)
    · exact h.mono
    · refine ⟨ho.lt hperm hsn, ho.not_fixed hperm hsn hne, ?_⟩
      obtain ⟨a, ha⟩ := ho.symm hperm hsn
      exact ⟨a, by rw [ha, hs]⟩

/-- Rejecting `k + 1` leaves the handled set as it was. -/
theorem done_succ_of_not_leader (hperm : PermOn σ n) {k s : Nat} (hs : s = k + 1)
    (hrej : σ s = s ∨ ∃ j, σ^[j] s < s) (i : Nat) :
    Done σ n (k + 1) i ↔ Done σ n k i := by
  constructor
  · rintro ⟨hi, hnei, j, hj⟩
    rcases Nat.lt_or_eq_of_le hj with h | h
    · exact ⟨hi, hnei, j, by omega⟩
    · have hjs : σ^[j] i = s := by rw [h, hs]
      rcases hrej with hfix | ⟨a, ha⟩
      · exfalso
        have ho : OnOrbit σ i s := ⟨j, hjs⟩
        exact ho.not_fixed hperm hi hnei hfix
      · refine ⟨hi, hnei, a + j, ?_⟩
        rw [Function.iterate_add_apply, hjs]
        omega
  · exact Done.mono

end DoneLemmas

/-! ## The invariant of the search loop -/

theorem mem_nonfixed {σ : Nat → Nat} {n i : Nat} : i ∈ nonfixed σ n ↔ i < n ∧ σ i ≠ i := by
  simp [nonfixed]

section MainInvLemmas

variable {σ : Nat → Nat} {n : Nat}

theorem length_le_card_nonfixed {l : List Nat} (hnd : l.Nodup)
    (hsub : ∀ i, i ∈ l → i < n ∧ σ i ≠ i) : l.length ≤ (nonfixed σ n).card := by
  rw [← List.toFinset_card_of_nodup hnd]
  apply Finset.card_le_card
  intro i hi
  rw [List.mem_toFinset] at hi
  exact mem_nonfixed.mpr (hsub i hi)

/-- While the swap budget is not used up, some non-fixed index is still unhandled. -/
theorem MainInv.exists_not_done {m : List Nat} {k nswaps : Nat} {st : Machine}
    (hinv : MainInv σ n m k st nswaps) (hns : nswaps ≠ 0) :
    ∃ i, i < n ∧ σ i ≠ i ∧ ¬ Done σ n k i := by
  have hcard : (writes st.trace).toFinset.card < (nonfixed σ n).card := by
    rw [List.toFinset_card_of_nodup hinv.nodup, ← hinv.count]
    omega
  by_contra hall
  have hsub : nonfixed σ n ⊆ (writes st.trace).toFinset := by
    intro i hi
    rw [mem_nonfixed] at hi
    rw [List.mem_toFinset, hinv.mem i]
    by_contra hnd
    exact hall ⟨i, hi.1, hi.2, hnd⟩
  exact absurd (Finset.card_le_card hsub) (not_le.mpr hcard)

/-- Once the swap budget is used up, every non-fixed index has been handled. -/
theorem MainInv.done_of_zero {m : List Nat} {k : Nat} {st : Machine}
    (hinv : MainInv σ n m k st 0) {i : Nat} (hi : i < n) (hne : σ i ≠ i) : Done σ n k i := by
  by_contra hnd
  have hsub : (writes st.trace).toFinset ⊆ nonfixed σ n := by
    intro j hj
    rw [List.mem_toFinset, hinv.mem j] at hj
    exact mem_nonfixed.mpr ⟨hj.1, hj.2.1⟩
  have hcard : (nonfixed σ n).card ≤ (writes st.trace).toFinset.card := by
    rw [List.toFinset_card_of_nodup hinv.nodup, ← hinv.count]
    omega
  have heq := Finset.eq_of_subset_of_card_le hsub hcard
  have hmem : i ∈ (writes st.trace).toFinset := by
    rw [heq]; exact mem_nonfixed.mpr ⟨hi, hne⟩
  rw [List.mem_toFinset, hinv.mem i] at hmem
  exact hnd hmem

/-- At the exit of the loop the value of every slot has moved to its target slot. -/
theorem MainInv.final {m : List Nat} {k : Nat} {st : Machine}
    (hinv : MainInv σ n m k st 0) {i : Nat} (hi : i < n) : st.matrix[σ i]? = m[i]? := by
  by_cases hfix : σ i = i
  · rw [hfix]
    exact hinv.kept i (fun hd => hd.2.1 hfix)
  · exact hinv.moved i (hinv.done_of_zero hi hfix)

/-- Recording a call of the classifier keeps the invariant. -/
theorem MainInv.probe {m : List Nat} {k nswaps : Nat} {st : Machine}
    (hinv : MainInv σ n m k st nswaps) {i : Nat} (hi : i + 1 < n) :
    MainInv σ n m k ⟨st.matrix, Event.probe i :: st.trace⟩ nswaps :=
  { length := hinv.length
    moved := hinv.moved
    kept := hinv.kept
    nodup := hinv.nodup
    mem := hinv.mem
    count := hinv.count
    events := by
      intro e he
      rcases List.mem_cons.mp he with h | h
      · subst h; exact hi
      · exact hinv.events e h }

/-- Moving the search index past a rejected candidate keeps the invariant. -/
theorem MainInv.reject (hperm : PermOn σ n) {m : List Nat} {k s nswaps : Nat} {st : Machine}
    (hinv : MainInv σ n m k st nswaps) (hs : s = k + 1)
    (hrej : σ s = s ∨ ∃ j, σ^[j] s < s) : MainInv σ n m (k + 1) st nswaps :=
  { length := hinv.length
    moved := fun i hd => hinv.moved i ((done_succ_of_not_leader hperm hs hrej i).mp hd)
    kept := fun i hd => hinv.kept i (fun h => hd ((done_succ_of_not_leader hperm hs hrej i).mpr h))
    nodup := hinv.nodup
    mem := fun i => (hinv.mem i).trans (done_succ_of_not_leader hperm hs hrej i).symm
    count := hinv.count
    events := hinv.events }

end MainInvLemmas

theorem card_nonfixed_le (σ : Nat → Nat) (n : Nat) : (nonfixed σ n).card ≤ n := by
  have := Finset.card_filter_le (Finset.range n) (fun i => σ i ≠ i)
  rwa [Finset.card_range] at this

theorem mem_cycleWrites {σ : Nat → Nat} {s t : Nat} {e : Event} (he : e ∈ cycleWrites σ s t) :
    ∃ u, e = Event.write (σ^[u + 1] s) := by
  unfold cycleWrites at he
  rw [List.mem_reverse, List.mem_map] at he
  obtain ⟨u, _, hu⟩ := he
  exact ⟨u, hu.symm⟩

/-- Rotating the cycle led by `k + 1` re-establishes the invariant at `k + 1`, and the
subtraction of the cycle length from the swap budget does not wrap. -/
theorem MainInv.rotate {rows cols n fuel0 : Nat}
    (hperm : PermOn (transpose_index rows cols) n) (hn : n ≤ ULONG_MAX) (hfuel0 : n ≤ fuel0)
    (hlast : transpose_index rows cols (n - 1) = n - 1)
    {m : List Nat} {k s nswaps : Nat} {st : Machine}
    (hinv : MainInv (transpose_index rows cols) n m k st nswaps) (hs : s = k + 1) (hsn : s < n)
    (hne : transpose_index rows cols s ≠ s)
    (hmin : ∀ j, s ≤ (transpose_index rows cols)^[j] s) :
    ∃ st' count, transpose_cycle fuel0 rows cols st s = .ok (st', count) ∧
      1 < count ∧ count ≤ nswaps ∧
      MainInv (transpose_index rows cols) n m (k + 1)
        ⟨st'.matrix, Event.sub nswaps count :: st'.trace⟩ (usub nswaps count) ∧
      ∃ pre, st'.trace = pre ++ Event.rotate s :: st.trace := by
  obtain ⟨st', hrun, hP1, hPn, hc⟩ := transpose_cycle_spec hperm hn hsn st hinv.length hfuel0 hne
  have hw : writes st'.trace
      = writes (cycleWrites (transpose_index rows cols) s
          (Function.minimalPeriod (transpose_index rows cols) s)) ++ writes st.trace := by
    rw [hc.trace, writes_append]; rfl
  have hmem : ∀ i, i ∈ writes st'.trace ↔ Done (transpose_index rows cols) n (k + 1) i := by
    intro i
    rw [hw, List.mem_append, mem_writes_cycleWrites_iff hperm hsn, hinv.mem,
      done_succ_of_leader hperm hs hsn hne, or_comm]
  have hnd : (writes st'.trace).Nodup := by
    rw [hw, List.nodup_append]
    refine ⟨nodup_writes_cycleWrites _ _, hinv.nodup, ?_⟩
    intro i h1 h2
    rw [mem_writes_cycleWrites_iff hperm hsn] at h1
    rw [hinv.mem] at h2
    exact not_done_of_leader hs hmin h1 h2
  have hlen : (writes st'.trace).length
      = Function.minimalPeriod (transpose_index rows cols) s + (writes st.trace).length := by
    rw [hw, List.length_append, length_writes_cycleWrites]
  have hle := length_le_card_nonfixed hnd (fun i hi => ⟨((hmem i).mp hi).1, ((hmem i).mp hi).2.1⟩)
  have hcount := hinv.count
  have hNn := card_nonfixed_le (transpose_index rows cols) n
  have hPle : Function.minimalPeriod (transpose_index rows cols) s ≤ nswaps := by omega
  have hsub : usub nswaps (Function.minimalPeriod (transpose_index rows cols) s)
      = nswaps - Function.minimalPeriod (transpose_index rows cols) s :=
    usub_of_le hPle (by omega)
  have hs1 : s + 1 < n := by
    have : s ≠ n - 1 := fun h => hne (by rw [h]; exact hlast)
    omega
  refine ⟨st', _, hrun, hP1, hPle, ?_, ⟨_, hc.trace⟩⟩
  refine
    { length := hc.length
      moved := ?_
      kept := ?_
      nodup := hnd
      mem := hmem
      count := ?_
      events := ?_ }
  · intro i hd
    show st'.matrix[transpose_index rows cols i]? = m[i]?
    rcases (done_succ_of_leader hperm hs hsn hne i).mp hd with h | h
    · have hoff : ¬ OnOrbit (transpose_index rows cols) s (transpose_index rows cols i) :=
        fun ho => not_done_of_leader hs hmin (ho.of_step hperm hsn h.1) h
      rw [hc.kept_off hoff]
      exact hinv.moved i h
    · rw [hc.moved_orbit hperm hsn h]
      exact hinv.kept i (not_done_of_leader hs hmin h)
  · intro i hd
    show st'.matrix[i]? = m[i]?
    have h1 : ¬ Done (transpose_index rows cols) n k i := fun h => hd h.mono
    have h2 : ¬ OnOrbit (transpose_index rows cols) s i :=
      fun h => hd ((done_succ_of_leader hperm hs hsn hne i).mpr (Or.inr h))
    rw [hc.kept_off h2]
    exact hinv.kept i h1
  · show usub nswaps _ + (writes st'.trace).length = _
    rw [hsub, hlen]
    omega
  · intro e he
    rcases List.mem_cons.mp he with h | h
    · subst h; exact hPle
    · rw [hc.trace, List.mem_append] at h
      rcases h with h | h
      · obtain ⟨u, rfl⟩ := mem_cycleWrites h
        have ho : OnOrbit (transpose_index rows cols) s ((transpose_index rows cols)^[u + 1] s) :=
          ⟨u + 1, rfl⟩
        exact ⟨ho.lt hperm hsn, ho.not_fixed hperm hsn hne⟩
      · rcases List.mem_cons.mp h with h | h
        · subst h; exact ⟨hs1, hne⟩
        · exact hinv.events e h

/-! ## The search loop and the whole function -/

/-- The `while (nswaps)` loop returns with the swap budget at zero, the invariant holding
at the exit. -/
theorem transpose_matrix_loop_spec {rows cols n fuel0 : Nat}
    (hperm : PermOn (transpose_index rows cols) n) (hn : n ≤ ULONG_MAX) (hfuel0 : n ≤ fuel0)
    (hlast : transpose_index rows cols (n - 1) = n - 1) (m : List Nat) :
    ∀ fuel (st : Machine) (nswaps k : Nat), n ≤ fuel + k → k < n →
      MainInv (transpose_index rows cols) n m k st nswaps →
      ∃ st' k', transpose_matrix_loop rows cols fuel0 fuel st nswaps k = .ok (st', 0) ∧
        MainInv (transpose_index rows cols) n m k' st' 0 ∧
        ∃ pre, st'.trace = pre ++ st.trace := by
  intro fuel
  induction fuel with
  | zero => intro st nswaps k hf hk _; omega
  | succ fuel ih =>
    intro st nswaps k hf hk hinv
    unfold transpose_matrix_loop
    by_cases hns : nswaps = 0
    · subst hns
      exact ⟨st, k, by simp, hinv, [], rfl⟩
    · rw [if_pos hns]
      obtain ⟨i, hi, hnei, hnd⟩ := hinv.exists_not_done hns
      have hki : k < i := by
        by_contra hle
        exact hnd ⟨hi, hnei, 0, by simpa using not_lt.mp hle⟩
      have hi1 : i ≠ n - 1 := fun h => hnei (by rw [h]; exact hlast)
      have hadd : uadd k 1 = k + 1 := uadd_of_le (by omega)
      obtain ⟨b, hb, hiff⟩ :=
        should_transpose_cycle_spec hperm hn (show k + 1 < n by omega) hfuel0
      have hprobe := hinv.probe (show (k + 1) + 1 < n by omega)
      simp only [hadd, hb]
      cases b with
      | false =>
        have hrej : transpose_index rows cols (k + 1) = k + 1 ∨
            ∃ j, (transpose_index rows cols)^[j] (k + 1) < k + 1 := by
          by_contra hcon
          rw [not_or, not_exists] at hcon
          have : (false = true) := hiff.mpr ⟨hcon.1, fun j => not_lt.mp (hcon.2 j)⟩
          exact Bool.false_ne_true this
        obtain ⟨st', k', hrun, hfin, pre, hpre⟩ :=
          ih _ nswaps (k + 1) (by omega) (by omega) (hprobe.reject hperm rfl hrej)
        exact ⟨st', k', hrun, hfin, pre ++ [Event.probe (k + 1)], by simp [hpre]⟩
      | true =>
        obtain ⟨hne, hmin⟩ := hiff.mp rfl
        obtain ⟨st1, count, hrun1, _, _, hinv1, pre1, hpre1⟩ :=
          hprobe.rotate hperm hn hfuel0 hlast rfl (by omega) hne hmin
        simp only [hrun1]
        obtain ⟨st', k', hrun, hfin, pre, hpre⟩ :=
          ih _ (usub nswaps count) (k + 1) (by omega) (by omega) hinv1
        refine ⟨st', k', hrun, hfin,
          pre ++ Event.sub nswaps count :: pre1 ++ [Event.rotate (k + 1), Event.probe (k + 1)], ?_⟩
        simp [hpre, hpre1]

theorem transpose_index_zero {rows cols : Nat} (hr : 1 ≤ rows) (hc : 1 ≤ cols)
    (hn : rows * cols ≤ ULONG_MAX) : transpose_index rows cols 0 = 0 := by
  have h0 : 0 < rows * cols := Nat.mul_pos hr hc
  rw [transpose_index_exact hn h0]
  simp

theorem transpose_index_last {rows cols : Nat} (hr : 1 ≤ rows) (hc : 1 ≤ cols)
    (hn : rows * cols ≤ ULONG_MAX) :
    transpose_index rows cols (rows * cols - 1) = rows * cols - 1 := by
  have h0 : 0 < rows * cols := Nat.mul_pos hr hc
  obtain ⟨a, rfl⟩ : ∃ a, rows = a + 1 := ⟨rows - 1, by omega⟩
  obtain ⟨b, rfl⟩ : ∃ b, cols = b + 1 := ⟨cols - 1, by omega⟩
  have hi : (a + 1) * (b + 1) - 1 < (a + 1) * (b + 1) := by omega
  have he : (a + 1) * (b + 1) - 1 = b + (b + 1) * a := by
    have : (a + 1) * (b + 1) = b + (b + 1) * a + 1 := by ring
    omega
  rw [(fixed_iff hn hi)]
  simp only [Nat.add_sub_cancel]
  rw [he, Nat.add_mul_mod_self_left, Nat.add_mul_div_left _ _ (Nat.succ_pos b),
    Nat.mod_eq_of_lt (Nat.lt_succ_self b), Nat.div_eq_of_lt (Nat.lt_succ_self b), Nat.zero_add,
    Nat.mul_comm]

/-- The swap budget computed on entry is the number of non-fixed indices, and computing
it does not wrap. -/
theorem card_nonfixed_eq {rows cols : Nat} (hr : 1 ≤ rows) (hc : 1 ≤ cols)
    (hn : rows * cols ≤ ULONG_MAX) :
    Nat.gcd (rows - 1) (cols - 1) + 1 ≤ rows * cols ∧
    (nonfixed (transpose_index rows cols) (rows * cols)).card
      = rows * cols - (Nat.gcd (rows - 1) (cols - 1) + 1) := by
  have h1 := card_fixed hr hc hn
  have h2 : ((Finset.range (rows * cols)).filter (fun i => transpose_index rows cols i = i)).card
      + ((Finset.range (rows * cols)).filter (fun i => transpose_index rows cols i ≠ i)).card
      = (Finset.range (rows * cols)).card :=
    Finset.filter_card_add_filter_neg_card_eq_card _
  rw [Finset.card_range, h1] at h2
  unfold nonfixed
  constructor <;> omega

/-- The swap budget is non-zero exactly when both dimensions are at least two. -/
theorem nswaps_ne_zero_iff {rows cols : Nat} (hr : 1 ≤ rows) (hc : 1 ≤ cols) :
    rows * cols - (Nat.gcd (rows - 1) (cols - 1) + 1) ≠ 0 ↔ 2 ≤ rows ∧ 2 ≤ cols := by
  constructor
  · intro h
    constructor
    · by_contra hlt
      have h1 : rows = 1 := by omega
      subst h1
      simp only [Nat.sub_self, Nat.gcd_zero_left, Nat.one_mul] at h
      omega
    · by_contra hlt
      have h1 : cols = 1 := by omega
      subst h1
      simp only [Nat.sub_self, Nat.gcd_zero_right, Nat.mul_one] at h
      omega
  · rintro ⟨h2r, h2c⟩
    have hg : Nat.gcd (rows - 1) (cols - 1) ≤ rows - 1 := Nat.gcd_le_left _ (by omega)
    have hm : 2 * rows ≤ rows * cols := by
      rw [Nat.mul_comm 2 rows]; exact Nat.mul_le_mul_left _ h2c
    omega

theorem transpose_index_one {rows cols : Nat} (hr : 2 ≤ rows) (hc : 2 ≤ cols)
    (hn : rows * cols ≤ ULONG_MAX) : transpose_index rows cols 1 = rows := by
  have h1 : 1 < rows * cols := by
    have : 2 * rows ≤ rows * cols := by
      rw [Nat.mul_comm 2 rows]; exact Nat.mul_le_mul_left _ hc
    omega
  rw [transpose_index_exact hn h1, Nat.mod_eq_of_lt (show 1 < cols by omega),
    Nat.div_eq_of_lt (show 1 < cols by omega)]
  simp

theorem seed_loop_stop {rows cols fuel index : Nat} (st : Machine) (hfuel : 0 < fuel)
    (hne : transpose_index rows cols index ≠ index) :
    seed_loop rows cols fuel st index = .ok (st, index) := by
  cases fuel with
  | zero => omega
  | succ fuel => unfold seed_loop; rw [if_neg hne]

/-- On valid input `transpose_matrix` returns with its swap budget at zero; the search
invariant holds for the machine it leaves, and the trace starts with the subtraction of
the fixed-point count, followed, when there is anything to move, by the rotation of the
cycle of index `1`. -/
theorem transpose_matrix_run {rows cols fuel : Nat} {m : List Nat} (hr : 1 ≤ rows)
    (hc : 1 ≤ cols) (hn : rows * cols ≤ ULONG_MAX) (hm : m.length = rows * cols)
    (hfuel : rows * cols ≤ fuel) :
    ∃ st k, transpose_matrix fuel rows cols m = .ok (st, 0) ∧
      MainInv (transpose_index rows cols) (rows * cols) m k st 0 ∧
      (∃ pre, st.trace
        = pre ++ [Event.sub (rows * cols) (Nat.gcd (rows - 1) (cols - 1) + 1)]) ∧
      (2 ≤ rows → 2 ≤ cols → ∃ pre, st.trace
        = pre ++ [Event.rotate 1, Event.sub (rows * cols) (Nat.gcd (rows - 1) (cols - 1) + 1)]) ∧
      (¬ (2 ≤ rows ∧ 2 ≤ cols) →
        st = ⟨m, [Event.sub (rows * cols) (Nat.gcd (rows - 1) (cols - 1) + 1)]⟩) := by
  have hperm := permOn_transpose_index hn
  have hzero := transpose_index_zero hr hc hn
  have hlast := transpose_index_last hr hc hn
  obtain ⟨hgle, hcard⟩ := card_nonfixed_eq hr hc hn
  have hrows : rows ≤ rows * cols := Nat.le_mul_of_pos_right rows hc
  have hcols : cols ≤ rows * cols := Nat.le_mul_of_pos_left cols hr
  have e1 : usub rows 1 = rows - 1 := usub_of_le hr (by omega)
  have e2 : usub cols 1 = cols - 1 := usub_of_le hc (by omega)
  have e3 : gcd fuel (rows - 1) (cols - 1) = .ok (Nat.gcd (rows - 1) (cols - 1)) :=
    gcd_spec (by omega)
  have e4 : umul rows cols = rows * cols := umul_of_le hn
  have e5 : uadd (Nat.gcd (rows - 1) (cols - 1)) 1 = Nat.gcd (rows - 1) (cols - 1) + 1 :=
    uadd_of_le (by omega)
  have e6 : usub (rows * cols) (Nat.gcd (rows - 1) (cols - 1) + 1)
      = rows * cols - (Nat.gcd (rows - 1) (cols - 1) + 1) := usub_of_le hgle hn
  have hinv0 : MainInv (transpose_index rows cols) (rows * cols) m 0
      ⟨m, [Event.sub (rows * cols) (Nat.gcd (rows - 1) (cols - 1) + 1)]⟩
      (rows * cols - (Nat.gcd (rows - 1) (cols - 1) + 1)) :=
    { length := hm
      moved := fun i hd => absurd hd (not_done_zero hperm hzero i)
      kept := fun _ _ => rfl
      nodup := List.nodup_nil
      mem := fun i => ⟨fun h => absurd h (List.not_mem_nil i),
        fun hd => absurd hd (not_done_zero hperm hzero i)⟩
      count := by rw [hcard]; rfl
      events := by
        intro e he
        rw [List.mem_singleton] at he
        subst he
        exact hgle }
  unfold transpose_matrix
  simp only [e1, e2, e3, e4, e5, e6]
  by_cases hN : rows * cols - (Nat.gcd (rows - 1) (cols - 1) + 1) = 0
  · rw [if_neg (not_not.mpr hN)]
    rw [hN] at hinv0
    have hsmall : ¬ (2 ≤ rows ∧ 2 ≤ cols) :=
      fun h => (nswaps_ne_zero_iff hr hc).mpr h hN
    exact ⟨_, 0, by rw [hN], hinv0, ⟨[], rfl⟩, fun h1 h2 => absurd ⟨h1, h2⟩ hsmall,
      fun _ => rfl⟩
  · rw [if_pos hN]
    obtain ⟨h2r, h2c⟩ := (nswaps_ne_zero_iff hr hc).mp hN
    have h1n : 1 < rows * cols := by
      have : 2 * rows ≤ rows * cols := by
        rw [Nat.mul_comm 2 rows]; exact Nat.mul_le_mul_left _ h2c
      omega
    have hone : transpose_index rows cols 1 ≠ 1 := by
      rw [transpose_index_one h2r h2c hn]; omega
    have hmin : ∀ j, 1 ≤ (transpose_index rows cols)^[j] 1 := by
      intro j
      by_contra hlt
      have hj0 : (transpose_index rows cols)^[j] 1 = 0 := by omega
      have ho : OnOrbit (transpose_index rows cols) 1 0 := ⟨j, hj0⟩
      have := OnOrbit.eq_of_fixed hzero (ho.symm hperm h1n)
      omega
    rw [seed_loop_stop _ (by omega) hone]
    obtain ⟨st1, count, hrun1, _, _, hinv1, pre1, hpre1⟩ :=
      hinv0.rotate hperm hn hfuel hlast rfl h1n hone hmin
    simp only [hrun1]
    obtain ⟨st', k', hrun, hfin, pre, hpre⟩ :=
      transpose_matrix_loop_spec hperm hn hfuel hlast m fuel _ _ 1 (by omega) h1n hinv1
    have htr : st'.trace = (pre ++ Event.sub (rows * cols - (Nat.gcd (rows - 1) (cols - 1) + 1))
        count :: pre1)
        ++ [Event.rotate 1, Event.sub (rows * cols) (Nat.gcd (rows - 1) (cols - 1) + 1)] := by
      simp [hpre, hpre1]
    refine ⟨st', k', hrun, hfin, ⟨_, htr.trans (List.append_cons _ _ _)⟩, fun _ _ => ⟨_, htr⟩,
      fun hsmall => absurd ⟨h2r, h2c⟩ hsmall⟩

/-! ## The buffer after the call -/

theorem transpose_index_row_col {rows cols r c : Nat} (hn : rows * cols ≤ ULONG_MAX)
    (hr : r < rows) (hc : c < cols) :
    r * cols + c < rows * cols ∧ transpose_index rows cols (r * cols + c) = c * rows + r := by
  have hlt : r * cols + c < rows * cols := by
    have : (r + 1) * cols ≤ rows * cols := Nat.mul_le_mul_right _ hr
    rw [Nat.add_mul, Nat.one_mul] at this
    omega
  refine ⟨hlt, ?_⟩
  rw [transpose_index_exact hn hlt, Nat.add_comm (r * cols) c, Nat.add_mul_mod_self_right,
    Nat.mod_eq_of_lt hc, Nat.add_mul_div_right _ _ (by omega : 0 < cols), Nat.div_eq_of_lt hc,
    Nat.zero_add]

/-- On valid input the call returns and the value of slot `(r, c)` of the `rows × cols`
layout is found in slot `(c, r)` of the `cols × rows` layout. -/
theorem transpose_matrix_moves {rows cols fuel : Nat} {m : List Nat} (hr : 1 ≤ rows)
    (hc : 1 ≤ cols) (hn : rows * cols ≤ ULONG_MAX) (hm : m.length = rows * cols)
    (hfuel : rows * cols ≤ fuel) :
    ∃ st, transpose_matrix fuel rows cols m = .ok (st, 0) ∧
      st.matrix.length = m.length ∧
      ∀ r c, r < rows → c < cols → st.matrix[c * rows + r]? = m[r * cols + c]? := by
  obtain ⟨st, k, hrun, hinv, _⟩ := transpose_matrix_run hr hc hn hm hfuel
  refine ⟨st, hrun, by rw [hinv.length, hm], ?_⟩
  intro r c hr' hc'
  obtain ⟨hlt, he⟩ := transpose_index_row_col hn hr' hc'
  rw [← he]
  exact hinv.final hlt

/-- Every flat index is the slot of some row and column. -/
theorem index_row_col {rows cols i : Nat} (hi : i < rows * cols) :
    i / cols < rows ∧ i % cols < cols ∧ (i / cols) * cols + i % cols = i := by
  have hc : 0 < cols := by
    rcases Nat.eq_zero_or_pos cols with h | h
    · subst h; simp at hi
    · exact h
  refine ⟨by rw [Nat.div_lt_iff_lt_mul hc]; exact hi, Nat.mod_lt _ hc, ?_⟩
  rw [Nat.mul_comm]
  exact Nat.div_add_mod i cols


/-- A list whose values have moved along a bijection of the indices below its length is
a permutation of the original list. -/
theorem perm_of_moved {n : Nat} {σ τ : Nat → Nat} (hσ : ∀ i, i < n → σ i < n)
    (hτ : ∀ j, j < n → τ j < n) (hl : ∀ i, i < n → τ (σ i) = i) (hr : ∀ j, j < n → σ (τ j) = j)
    {m m' : List Nat} (hm : m.length = n) (hm' : m'.length = n)
    (h : ∀ i, i < n → m'[σ i]? = m[i]?) : m'.Perm m := by
  let e : Equiv.Perm (Fin n) :=
    ⟨fun i => ⟨σ i, hσ i i.2⟩, fun j => ⟨τ j, hτ j j.2⟩,
      fun i => Fin.ext (hl i i.2), fun j => Fin.ext (hr j j.2)⟩
  let f : Fin n → Nat := fun j => m'[j.1]?.getD 0
  have h1 : List.ofFn f = m' := by
    apply List.ext_getElem
    · simp [hm']
    · intro i hi1 hi2
      simp [f, hi2]
  have h2 : List.ofFn (f ∘ e) = m := by
    apply List.ext_getElem
    · simp [hm]
    · intro i hi1 hi2
      have hin : i < n := by rw [← hm]; exact hi2
      simp [f, e, h i hin, hi2]
  have := e.ofFn_comp_perm f
  rw [h1, h2] at this
  exact this.symm

/-! ## The claims -/

/-- C1: for `rows ≥ 1`, `cols ≥ 1` with `rows * cols` representable and a buffer `m` of
length `rows * cols`, `transpose_matrix` returns and the buffer it leaves holds at flat
index `c * rows + r` the value `m` held at `r * cols + c`, for every `r < rows`, `c < cols`. -/
theorem C1_transpose_matrix_postcondition (rows cols fuel : Nat) (m : List Nat)
    (hr : 1 ≤ rows) (hc : 1 ≤ cols) (hn : rows * cols ≤ ULONG_MAX)
    (hm : m.length = rows * cols) (hfuel : rows * cols ≤ fuel) :
    ∃ st, transpose_matrix fuel rows cols m = .ok (st, 0) ∧
      st.matrix.length = m.length ∧
      ∀ r c, r < rows → c < cols → st.matrix[c * rows + r]? = m[r * cols + c]? :=
  transpose_matrix_moves hr hc hn hm hfuel

/-- C1 at `rows = 2`, `cols = 3`, together with the two scenarios of the specification:
`[1,2,3,4,5,6]` becomes `[1,4,2,5,3,6]` and, for `rows = 4`, `cols = 2`, `[1..8]` becomes
`[1,3,5,7,2,4,6,8]`. -/
theorem C1_transpose_matrix_postcondition_witness :
    (∃ st, transpose_matrix 6 2 3 [1, 2, 3, 4, 5, 6] = .ok (st, 0) ∧
      st.matrix.length = [1, 2, 3, 4, 5, 6].length ∧
      ∀ r c, r < 2 → c < 3 → st.matrix[c * 2 + r]? = [1, 2, 3, 4, 5, 6][r * 3 + c]?) ∧
    (transpose_matrix 6 2 3 [1, 2, 3, 4, 5, 6]).map (fun res => res.1.matrix)
      = .ok [1, 4, 2, 5, 3, 6] ∧
    (transpose_matrix 8 4 2 [1, 2, 3, 4, 5, 6, 7, 8]).map (fun res => res.1.matrix)
      = .ok [1, 3, 5, 7, 2, 4, 6, 8] :=
  ⟨C1_transpose_matrix_postcondition 2 3 6 [1, 2, 3, 4, 5, 6] (by decide) (by decide)
    (by decide) (by decide) (by decide), rfl, rfl⟩

/-- C2: round trip. Transposing a `rows × cols` buffer and then transposing the result as
a `cols × rows` buffer returns the original buffer, element for element. -/
theorem C2_round_trip (rows cols fuel : Nat) (m : List Nat)
    (hr : 1 ≤ rows) (hc : 1 ≤ cols) (hn : rows * cols ≤ ULONG_MAX)
    (hm : m.length = rows * cols) (hfuel : rows * cols ≤ fuel) :
    ∃ st st', transpose_matrix fuel rows cols m = .ok (st, 0) ∧
      transpose_matrix fuel cols rows st.matrix = .ok (st', 0) ∧
      st'.matrix = m := by
  obtain ⟨st, hrun, hlen, hmv⟩ := transpose_matrix_moves hr hc hn hm hfuel
  have hn' : cols * rows ≤ ULONG_MAX := by rwa [Nat.mul_comm]
  have hm' : st.matrix.length = cols * rows := by rw [hlen, hm, Nat.mul_comm]
  have hfuel' : cols * rows ≤ fuel := by rwa [Nat.mul_comm]
  obtain ⟨st', hrun', hlen', hmv'⟩ := transpose_matrix_moves hc hr hn' hm' hfuel'
  refine ⟨st, st', hrun, hrun', ?_⟩
  apply List.ext_getElem?
  intro i
  by_cases hi : i < rows * cols
  · obtain ⟨h1, h2, h3⟩ := index_row_col hi
    rw [← h3, hmv' (i % cols) (i / cols) h2 h1, hmv (i / cols) (i % cols) h1 h2]
  · have e1 : st'.matrix.length ≤ i := by rw [hlen', hlen, hm]; omega
    have e2 : m.length ≤ i := by rw [hm]; omega
    rw [List.getElem?_eq_none e1, List.getElem?_eq_none e2]

/-- C2 at `rows = 2`, `cols = 3` on `[1,2,3,4,5,6]`. -/
theorem C2_round_trip_witness :
    ∃ st st', transpose_matrix 6 2 3 [1, 2, 3, 4, 5, 6] = .ok (st, 0) ∧
      transpose_matrix 6 3 2 st.matrix = .ok (st', 0) ∧
      st'.matrix = [1, 2, 3, 4, 5, 6] :=
  C2_round_trip 2 3 6 [1, 2, 3, 4, 5, 6] (by decide) (by decide) (by decide) (by decide)
    (by decide)

/-- C3: on valid input `transpose_matrix` returns, with `nswaps` equal to `0`. The first
subtraction takes the program's `gcd(rows - 1, cols - 1) + 1`, which is at most
`rows * cols`, from `rows * cols`, and no subtraction from `nswaps` recorded during the run
takes more than `nswaps` holds, so the counter never wraps. -/
theorem C3_terminates_without_wrap (rows cols fuel : Nat) (m : List Nat)
    (hr : 1 ≤ rows) (hc : 1 ≤ cols) (hn : rows * cols ≤ ULONG_MAX)
    (hm : m.length = rows * cols) (hfuel : rows * cols ≤ fuel) :
    ∃ st g, transpose_matrix fuel rows cols m = .ok (st, 0) ∧
      gcd fuel (usub rows 1) (usub cols 1) = .ok g ∧
      g + 1 ≤ rows * cols ∧
      (∃ pre, st.trace = pre ++ [Event.sub (rows * cols) (g + 1)]) ∧
      ∀ nswaps amount, Event.sub nswaps amount ∈ st.trace → amount ≤ nswaps := by
  obtain ⟨st, k, hrun, hinv, hfirst, _⟩ := transpose_matrix_run hr hc hn hm hfuel
  have hrows : rows ≤ rows * cols := Nat.le_mul_of_pos_right rows hc
  have hcols : cols ≤ rows * cols := Nat.le_mul_of_pos_left cols hr
  refine ⟨st, Nat.gcd (rows - 1) (cols - 1), hrun, ?_, (card_nonfixed_eq hr hc hn).1, hfirst, ?_⟩
  · rw [usub_of_le hr (by omega), usub_of_le hc (by omega)]
    exact gcd_spec (by omega)
  · intro nswaps amount he
    exact hinv.events _ he

/-- C3 at `rows = 4`, `cols = 2` on `[1..8]`. -/
theorem C3_terminates_without_wrap_witness :
    ∃ st g, transpose_matrix 8 4 2 [1, 2, 3, 4, 5, 6, 7, 8] = .ok (st, 0) ∧
      gcd 8 (usub 4 1) (usub 2 1) = .ok g ∧
      g + 1 ≤ 4 * 2 ∧
      (∃ pre, st.trace = pre ++ [Event.sub (4 * 2) (g + 1)]) ∧
      ∀ nswaps amount, Event.sub nswaps amount ∈ st.trace → amount ≤ nswaps :=
  C3_terminates_without_wrap 4 2 8 [1, 2, 3, 4, 5, 6, 7, 8] (by decide) (by decide)
    (by decide) (by decide) (by decide)

/-- C4: permutation completeness. The flat indices written during `transpose_matrix` are
pairwise distinct, none of them is a fixed point of `transpose_index`, and an index lies
below `rows * cols` exactly when it was written or is a fixed point below `rows * cols`. -/
theorem C4_permutation_completeness (rows cols fuel : Nat) (m : List Nat)
    (hr : 1 ≤ rows) (hc : 1 ≤ cols) (hn : rows * cols ≤ ULONG_MAX)
    (hm : m.length = rows * cols) (hfuel : rows * cols ≤ fuel) :
    ∃ st, transpose_matrix fuel rows cols m = .ok (st, 0) ∧
      (writes st.trace).Nodup ∧
      (∀ i, i ∈ writes st.trace → transpose_index rows cols i ≠ i) ∧
      ∀ i, i < rows * cols ↔
        (i ∈ writes st.trace ∨ (i < rows * cols ∧ transpose_index rows cols i = i)) := by
  obtain ⟨st, k, hrun, hinv, _⟩ := transpose_matrix_run hr hc hn hm hfuel
  refine ⟨st, hrun, hinv.nodup, fun i hi => ((hinv.mem i).mp hi).2.1, ?_⟩
  intro i
  constructor
  · intro hi
    by_cases hfix : transpose_index rows cols i = i
    · exact Or.inr ⟨hi, hfix⟩
    · exact Or.inl ((hinv.mem i).mpr (hinv.done_of_zero hi hfix))
  · rintro (h | h)
    · exact ((hinv.mem i).mp h).1
    · exact h.1

/-- C4 at `rows = 3`, `cols = 3` on `[1..9]`. -/
theorem C4_permutation_completeness_witness :
    ∃ st, transpose_matrix 9 3 3 [1, 2, 3, 4, 5, 6, 7, 8, 9] = .ok (st, 0) ∧
      (writes st.trace).Nodup ∧
      (∀ i, i ∈ writes st.trace → transpose_index 3 3 i ≠ i) ∧
      ∀ i, i < 3 * 3 ↔
        (i ∈ writes st.trace ∨ (i < 3 * 3 ∧ transpose_index 3 3 i = i)) :=
  C4_permutation_completeness 3 3 9 [1, 2, 3, 4, 5, 6, 7, 8, 9] (by decide) (by decide)
    (by decide) (by decide) (by decide)

/-- C5: fixed-point count. The number of indices below `rows * cols` that
`transpose_index` maps to themselves is the program's `gcd(rows - 1, cols - 1)` plus one,
and the initial value of `nswaps` is the number of the other indices. -/
theorem C5_fixed_point_count (rows cols fuel : Nat)
    (hr : 1 ≤ rows) (hc : 1 ≤ cols) (hn : rows * cols ≤ ULONG_MAX) (hfuel : cols ≤ fuel) :
    ∃ g, gcd fuel (usub rows 1) (usub cols 1) = .ok g ∧
      ((Finset.range (rows * cols)).filter (fun i => transpose_index rows cols i = i)).card
        = g + 1 ∧
      usub (umul rows cols) (uadd g 1)
        = ((Finset.range (rows * cols)).filter (fun i => transpose_index rows cols i ≠ i)).card := by
  have hrows : rows ≤ rows * cols := Nat.le_mul_of_pos_right rows hc
  have hcols : cols ≤ rows * cols := Nat.le_mul_of_pos_left cols hr
  obtain ⟨hgle, hcard⟩ := card_nonfixed_eq hr hc hn
  refine ⟨Nat.gcd (rows - 1) (cols - 1), ?_, card_fixed hr hc hn, ?_⟩
  · rw [usub_of_le hr (by omega), usub_of_le hc (by omega)]
    exact gcd_spec (by omega)
  · rw [umul_of_le hn, uadd_of_le (by omega), usub_of_le hgle hn]
    exact hcard.symm

/-- C5 at `rows = 4`, `cols = 7`. -/
theorem C5_fixed_point_count_witness :
    ∃ g, gcd 7 (usub 4 1) (usub 7 1) = .ok g ∧
      ((Finset.range (4 * 7)).filter (fun i => transpose_index 4 7 i = i)).card = g + 1 ∧
      usub (umul 4 7) (uadd g 1)
        = ((Finset.range (4 * 7)).filter (fun i => transpose_index 4 7 i ≠ i)).card :=
  C5_fixed_point_count 4 7 7 (by decide) (by decide) (by decide) (by decide)

/-- C6: on valid input the run of `transpose_matrix` does not end in a failed assertion:
every start index with which `transpose_cycle` is entered lies below `rows * cols` on a
cycle of length at least two, and `transpose_cycle` entered there on a buffer of length
`rows * cols` returns a count above one. -/
theorem C6_assertion_never_fails (rows cols fuel : Nat) (m : List Nat)
    (hr : 1 ≤ rows) (hc : 1 ≤ cols) (hn : rows * cols ≤ ULONG_MAX)
    (hm : m.length = rows * cols) (hfuel : rows * cols ≤ fuel) :
    ∃ st, transpose_matrix fuel rows cols m = .ok (st, 0) ∧
      transpose_matrix fuel rows cols m ≠ .error Fault.assertFailed ∧
      ∀ s, Event.rotate s ∈ st.trace →
        s < rows * cols ∧
        1 < Function.minimalPeriod (transpose_index rows cols) s ∧
        ∀ st0 : Machine, st0.matrix.length = rows * cols →
          ∃ st1 count, transpose_cycle fuel rows cols st0 s = .ok (st1, count) ∧ 1 < count := by
  obtain ⟨st, k, hrun, hinv, _⟩ := transpose_matrix_run hr hc hn hm hfuel
  have hperm := permOn_transpose_index hn
  refine ⟨st, hrun, ?_, ?_⟩
  · rw [hrun]
    intro h
    cases h
  intro s hs
  obtain ⟨hlt, hne⟩ : s + 1 < rows * cols ∧ transpose_index rows cols s ≠ s :=
    hinv.events _ hs
  have hsn : s < rows * cols := by omega
  refine ⟨hsn, ?_, ?_⟩
  · obtain ⟨_, _, h1, _⟩ := transpose_cycle_spec hperm hn hsn ⟨m, []⟩ hm hfuel hne
    exact h1
  · intro st0 hlen
    obtain ⟨st1, hrun1, h1, _⟩ := transpose_cycle_spec hperm hn hsn st0 hlen hfuel hne
    exact ⟨st1, _, hrun1, h1⟩

/-- C6 at `rows = 3`, `cols = 4` on `[0..11]`. -/
theorem C6_assertion_never_fails_witness :
    ∃ st, transpose_matrix 12 3 4 [0, 1, 2, 3, 4, 5, 6, 7, 8, 9, 10, 11] = .ok (st, 0) ∧
      transpose_matrix 12 3 4 [0, 1, 2, 3, 4, 5, 6, 7, 8, 9, 10, 11]
        ≠ .error Fault.assertFailed ∧
      ∀ s, Event.rotate s ∈ st.trace →
        s < 3 * 4 ∧
        1 < Function.minimalPeriod (transpose_index 3 4) s ∧
        ∀ st0 : Machine, st0.matrix.length = 3 * 4 →
          ∃ st1 count, transpose_cycle 12 3 4 st0 s = .ok (st1, count) ∧ 1 < count :=
  C6_assertion_never_fails 3 4 12 [0, 1, 2, 3, 4, 5, 6, 7, 8, 9, 10, 11] (by decide)
    (by decide) (by decide) (by decide) (by decide)

/-- C7: degenerate shapes. For a buffer `m` of length `N ≥ 1`, both
`transpose_matrix(1, N, m)` and `transpose_matrix(N, 1, m)` return with `m` unchanged; the
only event is the first subtraction, which takes `N` from `N` and leaves `nswaps` at `0`,
so nothing is written. -/
theorem C7_degenerate_shapes (N fuel : Nat) (m : List Nat) (hN : 1 ≤ N) (hn : N ≤ ULONG_MAX)
    (hm : m.length = N) (hfuel : N ≤ fuel) :
    transpose_matrix fuel 1 N m = .ok (⟨m, [Event.sub N N]⟩, 0) ∧
    transpose_matrix fuel N 1 m = .ok (⟨m, [Event.sub N N]⟩, 0) := by
  have hN1 : N - 1 + 1 = N := by omega
  constructor
  · obtain ⟨st, k, hrun, _, _, _, hsmall⟩ :=
      @transpose_matrix_run 1 N fuel m (le_refl 1) hN
        (by rwa [Nat.one_mul]) (by rwa [Nat.one_mul]) (by rwa [Nat.one_mul])
    have := hsmall (by omega)
    rw [this] at hrun
    simpa [hN1] using hrun
  · obtain ⟨st, k, hrun, _, _, _, hsmall⟩ :=
      @transpose_matrix_run N 1 fuel m hN (le_refl 1)
        (by rwa [Nat.mul_one]) (by rwa [Nat.mul_one]) (by rwa [Nat.mul_one])
    have := hsmall (by omega)
    rw [this] at hrun
    simpa [hN1] using hrun

/-- C7 at `N = 5` on `[1,2,3,4,5]`, which stays `[1,2,3,4,5]`. -/
theorem C7_degenerate_shapes_witness :
    transpose_matrix 5 1 5 [1, 2, 3, 4, 5] = .ok (⟨[1, 2, 3, 4, 5], [Event.sub 5 5]⟩, 0) ∧
    transpose_matrix 5 5 1 [1, 2, 3, 4, 5] = .ok (⟨[1, 2, 3, 4, 5], [Event.sub 5 5]⟩, 0) :=
  C7_degenerate_shapes 5 5 [1, 2, 3, 4, 5] (by decide) (by decide) (by decide) (by decide)

/-- C8: square shapes. For a buffer `m` of length `N * N`, `transpose_matrix(N, N, m)`
returns and the buffer it leaves holds at `r * N + c` the value `m` held at `c * N + r`,
for all `r, c < N`; in particular the diagonal slots keep their values. -/
theorem C8_square_shapes (N fuel : Nat) (m : List Nat) (hN : 1 ≤ N)
    (hn : N * N ≤ ULONG_MAX) (hm : m.length = N * N) (hfuel : N * N ≤ fuel) :
    ∃ st, transpose_matrix fuel N N m = .ok (st, 0) ∧
      st.matrix.length = m.length ∧
      (∀ r c, r < N → c < N → st.matrix[r * N + c]? = m[c * N + r]?) ∧
      ∀ r, r < N → st.matrix[r * N + r]? = m[r * N + r]? := by
  obtain ⟨st, hrun, hlen, hmv⟩ := transpose_matrix_moves hN hN hn hm hfuel
  exact ⟨st, hrun, hlen, fun r c hr hc => hmv c r hc hr, fun r hr => hmv r r hr hr⟩

/-- C8 at `N = 3` on `[1..9]`, which becomes `[1,4,7,2,5,8,3,6,9]`. -/
theorem C8_square_shapes_witness :
    (∃ st, transpose_matrix 9 3 3 [1, 2, 3, 4, 5, 6, 7, 8, 9] = .ok (st, 0) ∧
      st.matrix.length = [1, 2, 3, 4, 5, 6, 7, 8, 9].length ∧
      (∀ r c, r < 3 → c < 3 → st.matrix[r * 3 + c]? = [1, 2, 3, 4, 5, 6, 7, 8, 9][c * 3 + r]?) ∧
      ∀ r, r < 3 → st.matrix[r * 3 + r]? = [1, 2, 3, 4, 5, 6, 7, 8, 9][r * 3 + r]?) ∧
    (transpose_matrix 9 3 3 [1, 2, 3, 4, 5, 6, 7, 8, 9]).map (fun res => res.1.matrix)
      = .ok [1, 4, 7, 2, 5, 8, 3, 6, 9] :=
  ⟨C8_square_shapes 3 9 [1, 2, 3, 4, 5, 6, 7, 8, 9] (by decide) (by decide) (by decide)
    (by decide), rfl⟩

/-- C9: on valid input the buffer left by `transpose_matrix` has the length of the buffer
passed in and is a permutation of it: no value is lost or duplicated. -/
theorem C9_same_length_and_multiset (rows cols fuel : Nat) (m : List Nat)
    (hr : 1 ≤ rows) (hc : 1 ≤ cols) (hn : rows * cols ≤ ULONG_MAX)
    (hm : m.length = rows * cols) (hfuel : rows * cols ≤ fuel) :
    ∃ st, transpose_matrix fuel rows cols m = .ok (st, 0) ∧
      st.matrix.length = m.length ∧ st.matrix.Perm m := by
  obtain ⟨st, k, hrun, hinv, _⟩ := transpose_matrix_run hr hc hn hm hfuel
  have hn' : cols * rows ≤ ULONG_MAX := by rwa [Nat.mul_comm]
  refine ⟨st, hrun, by rw [hinv.length, hm], ?_⟩
  refine perm_of_moved (fun i hi => transpose_index_lt hn hi)
    (fun j hj => ?_) (fun i hi => transpose_index_inv hn hi) (fun j hj => ?_) hm hinv.length
    (fun i hi => hinv.final hi)
  · rw [Nat.mul_comm]
    exact transpose_index_lt hn' (by rwa [Nat.mul_comm])
  · exact transpose_index_inv hn' (by rwa [Nat.mul_comm])

/-- C9 at `rows = 2`, `cols = 3` on a buffer with a repeated value. -/
theorem C9_same_length_and_multiset_witness :
    ∃ st, transpose_matrix 6 2 3 [7, 7, 1, 0, 7, 2] = .ok (st, 0) ∧
      st.matrix.length = [7, 7, 1, 0, 7, 2].length ∧ st.matrix.Perm [7, 7, 1, 0, 7, 2] :=
  C9_same_length_and_multiset 2 3 6 [7, 7, 1, 0, 7, 2] (by decide) (by decide) (by decide)
    (by decide) (by decide)

/-- C10: for `i` below `rows * cols` (which makes `rows ≥ 1` and `cols ≥ 1`),
`transpose_index` computed in wrapping arithmetic is the exact value
`(i mod cols) * rows + i / cols`: the subtraction `index - from_row * cols` does not wrap
and gives `i mod cols`, and neither product nor the sum exceeds `ULONG_MAX`. -/
theorem C10_transpose_index_exact (rows cols i : Nat)
    (hn : rows * cols ≤ ULONG_MAX) (hi : i < rows * cols) :
    transpose_index rows cols i = (i % cols) * rows + i / cols ∧
    usub i (umul (i / cols) cols) = i % cols ∧
    (i / cols) * cols ≤ i ∧
    (i / cols) * cols ≤ ULONG_MAX ∧
    (i % cols) * rows ≤ ULONG_MAX ∧
    (i % cols) * rows + i / cols ≤ ULONG_MAX := by
  have hlt := exact_index_lt hi
  have hdm : cols * (i / cols) + i % cols = i := Nat.div_add_mod i cols
  have h1 : i / cols * cols ≤ i := Nat.div_mul_le_self i cols
  have h3 : i % cols * rows ≤ i % cols * rows + i / cols := Nat.le_add_right _ _
  refine ⟨transpose_index_exact hn hi, ?_, h1, by omega, by omega, by omega⟩
  rw [umul_of_le (by omega), usub_of_le h1 (by omega)]
  rw [Nat.mul_comm] at hdm
  omega

/-- C10 at `rows = 4`, `cols = 7`, `i = 23`. -/
theorem C10_transpose_index_exact_witness :
    transpose_index 4 7 23 = (23 % 7) * 4 + 23 / 7 ∧
    usub 23 (umul (23 / 7) 7) = 23 % 7 ∧
    (23 / 7) * 7 ≤ 23 ∧
    (23 / 7) * 7 ≤ ULONG_MAX ∧
    (23 % 7) * 4 ≤ ULONG_MAX ∧
    (23 % 7) * 4 + 23 / 7 ≤ ULONG_MAX :=
  C10_transpose_index_exact 4 7 23 (by decide) (by decide)

/-- C11 fails as stated: with `rows = 2^63` and `cols = 3`, whose product does not fit an
`unsigned long`, index `2` lies below `rows * cols` (exact or wrapped) but mapping it and
mapping back with the dimensions swapped gives `0`, because `2 * rows` wraps to `0`. -/
theorem C11_overflow_counterexample :
    1 ≤ 9223372036854775808 ∧ 1 ≤ 3 ∧ 9223372036854775808 ≤ ULONG_MAX ∧ 3 ≤ ULONG_MAX ∧
    2 < 9223372036854775808 * 3 ∧ 2 < umul 9223372036854775808 3 ∧
    transpose_index 9223372036854775808 3 2 = 0 ∧
    transpose_index 3 9223372036854775808 (transpose_index 9223372036854775808 3 2) ≠ 2 := by
  decide

/-- C11, amended: when `rows * cols` fits an `unsigned long`, for every `i` below
`rows * cols` (which makes `rows ≥ 1` and `cols ≥ 1`) mapping `i` and then mapping the
result with `rows` and `cols` swapped returns `i`. -/
theorem C11_index_round_trip (rows cols i : Nat) (hn : rows * cols ≤ ULONG_MAX)
    (hi : i < rows * cols) :
    transpose_index cols rows (transpose_index rows cols i) = i :=
  transpose_index_inv hn hi

/-- C11, amended, at `rows = 4`, `cols = 7`, `i = 23`. -/
theorem C11_index_round_trip_witness :
    transpose_index 7 4 (transpose_index 4 7 23) = 23 :=
  C11_index_round_trip 4 7 23 (by decide) (by decide)

/-- C12 fails as stated: with `rows = 2^63` and `cols = 3`, whose product does not fit an
`unsigned long`, the indices `0` and `2` lie below `rows * cols` (exact or wrapped) and are
both mapped to `0`, so the mapping is not injective and `2` is on no cycle. -/
theorem C12_overflow_counterexample :
    1 ≤ 9223372036854775808 ∧ 1 ≤ 3 ∧ 9223372036854775808 ≤ ULONG_MAX ∧ 3 ≤ ULONG_MAX ∧
    0 < 9223372036854775808 * 3 ∧ 2 < 9223372036854775808 * 3 ∧
    0 < umul 9223372036854775808 3 ∧ 2 < umul 9223372036854775808 3 ∧
    (0 : Nat) ≠ 2 ∧
    transpose_index 9223372036854775808 3 0 = transpose_index 9223372036854775808 3 2 := by
  decide

/-- C12, amended: when `rows * cols` fits an `unsigned long`, `transpose_index(rows, cols, ·)`
maps the indices below `rows * cols` to indices below `rows * cols`, injectively and onto;
iterating it from any such index returns to that index after some `k ≥ 1` steps; and two
cycles that share an index have the same members, so the cycles partition the indices. -/
theorem C12_index_permutation (rows cols : Nat) (hn : rows * cols ≤ ULONG_MAX) :
    (∀ i, i < rows * cols → transpose_index rows cols i < rows * cols) ∧
    (∀ i j, i < rows * cols → j < rows * cols →
      transpose_index rows cols i = transpose_index rows cols j → i = j) ∧
    (∀ j, j < rows * cols → ∃ i, i < rows * cols ∧ transpose_index rows cols i = j) ∧
    (∀ i, i < rows * cols → ∃ k, 1 ≤ k ∧ (transpose_index rows cols)^[k] i = i) ∧
    (∀ i j l, i < rows * cols → j < rows * cols →
      OnOrbit (transpose_index rows cols) i l → OnOrbit (transpose_index rows cols) j l →
      ∀ x, OnOrbit (transpose_index rows cols) i x ↔ OnOrbit (transpose_index rows cols) j x) := by
  have hperm := permOn_transpose_index hn
  have hn' : cols * rows ≤ ULONG_MAX := by rwa [Nat.mul_comm]
  refine ⟨hperm.maps, hperm.inj, ?_, ?_, ?_⟩
  · intro j hj
    have hj' : j < cols * rows := by rwa [Nat.mul_comm]
    refine ⟨transpose_index cols rows j, ?_, transpose_index_inv hn' hj'⟩
    rw [Nat.mul_comm]
    exact transpose_index_lt hn' hj'
  · intro i hi
    obtain ⟨k, hk, _, hki⟩ := hperm.exists_period hi
    exact ⟨k, hk, hki⟩
  · intro i j l hi hj hil hjl x
    have hij : OnOrbit (transpose_index rows cols) i j := hil.trans (hjl.symm hperm hj)
    have hji : OnOrbit (transpose_index rows cols) j i := hjl.trans (hil.symm hperm hi)
    exact ⟨fun h => hji.trans h, fun h => hij.trans h⟩

/-- C12, amended, at `rows = 3`, `cols = 4`. -/
theorem C12_index_permutation_witness :
    (∀ i, i < 3 * 4 → transpose_index 3 4 i < 3 * 4) ∧
    (∀ i j, i < 3 * 4 → j < 3 * 4 → transpose_index 3 4 i = transpose_index 3 4 j → i = j) ∧
    (∀ j, j < 3 * 4 → ∃ i, i < 3 * 4 ∧ transpose_index 3 4 i = j) ∧
    (∀ i, i < 3 * 4 → ∃ k, 1 ≤ k ∧ (transpose_index 3 4)^[k] i = i) ∧
    (∀ i j l, i < 3 * 4 → j < 3 * 4 →
      OnOrbit (transpose_index 3 4) i l → OnOrbit (transpose_index 3 4) j l →
      ∀ x, OnOrbit (transpose_index 3 4) i x ↔ OnOrbit (transpose_index 3 4) j x) :=
  C12_index_permutation 3 4 (by decide)

/-- Once the probe walk sits on a fixed point above `start`, it never leaves the loop. -/
theorem should_transpose_cycle_loop_stuck {rows cols start p : Nat}
    (hfix : transpose_index rows cols p = p) (hlt : start < p) :
    ∀ fuel count, should_transpose_cycle_loop rows cols start fuel count p
      = .error Fault.outOfFuel := by
  intro fuel
  induction fuel with
  | zero => intro count; rfl
  | succ fuel ih =>
    intro count
    unfold should_transpose_cycle_loop
    simp only [hfix, gt_iff_lt, if_pos hlt]
    exact ih _

/-- Every cycle has a smallest member. -/
theorem exists_leader {σ : Nat → Nat} (i : Nat) :
    ∃ s, OnOrbit σ i s ∧ ∀ x, OnOrbit σ i x → s ≤ x := by
  classical
  have hex : ∃ s, OnOrbit σ i s := ⟨i, OnOrbit.refl i⟩
  exact ⟨Nat.find hex, Nat.find_spec hex, fun x hx => Nat.find_min' hex hx⟩

/-- C13 fails as stated: with `rows = 5` and `cols = 8070450532247928833`, whose product
does not fit an `unsigned long`, the start index `2939949836747459789` lies below
`rows * cols` (exact or wrapped), is mapped to `14699749183737298945`, and that index is
mapped to itself; the walk of `should_transpose_cycle` therefore stays above `start` for
ever and the function does not return, whatever the fuel. -/
theorem C13_overflow_counterexample :
    1 ≤ 5 ∧ 1 ≤ 8070450532247928833 ∧ 8070450532247928833 ≤ ULONG_MAX ∧
    2939949836747459789 < 5 * 8070450532247928833 ∧
    2939949836747459789 < umul 5 8070450532247928833 ∧
    transpose_index 5 8070450532247928833 2939949836747459789 = 14699749183737298945 ∧
    transpose_index 5 8070450532247928833 14699749183737298945 = 14699749183737298945 ∧
    ∀ fuel, should_transpose_cycle fuel 5 8070450532247928833 2939949836747459789
      = .error Fault.outOfFuel := by
  refine ⟨by decide, by decide, by decide, by decide, by decide, by decide, by decide, ?_⟩
  intro fuel
  cases fuel with
  | zero => rfl
  | succ fuel =>
    have h1 : transpose_index 5 8070450532247928833 2939949836747459789
        = 14699749183737298945 := by decide
    have h2 : transpose_index 5 8070450532247928833 14699749183737298945
        = 14699749183737298945 := by decide
    have h3 : 2939949836747459789 < 14699749183737298945 := by decide
    unfold should_transpose_cycle should_transpose_cycle_loop
    simp only [h1, gt_iff_lt, if_pos h3]
    rw [should_transpose_cycle_loop_stuck h2 h3]

/-- C13, amended: when `rows * cols` fits an `unsigned long`, for every `start` below
`rows * cols`, `should_transpose_cycle` returns, and it returns true exactly when `start`
is not a fixed point and no index on the cycle of `start` is smaller than `start`;
consequently on the cycle of every non-fixed index exactly one member is accepted. -/
theorem C13_classifier_accepts_leader (rows cols start fuel : Nat)
    (hn : rows * cols ≤ ULONG_MAX) (hs : start < rows * cols) (hfuel : rows * cols ≤ fuel) :
    (∃ b, should_transpose_cycle fuel rows cols start = .ok b ∧
      (b = true ↔ (transpose_index rows cols start ≠ start ∧
        ∀ x, OnOrbit (transpose_index rows cols) start x → start ≤ x))) ∧
    ∀ i, i < rows * cols → transpose_index rows cols i ≠ i →
      ∃ s, (OnOrbit (transpose_index rows cols) i s ∧
          should_transpose_cycle fuel rows cols s = .ok true) ∧
        ∀ s', OnOrbit (transpose_index rows cols) i s' →
          should_transpose_cycle fuel rows cols s' = .ok true → s' = s := by
  have hperm := permOn_transpose_index hn
  have key : ∀ s, s < rows * cols → ∃ b, should_transpose_cycle fuel rows cols s = .ok b ∧
      (b = true ↔ (transpose_index rows cols s ≠ s ∧
        ∀ x, OnOrbit (transpose_index rows cols) s x → s ≤ x)) := by
    intro s hsn
    obtain ⟨b, hb, hiff⟩ := should_transpose_cycle_spec hperm hn hsn hfuel
    refine ⟨b, hb, hiff.trans ⟨fun h => ⟨h.1, ?_⟩, fun h => ⟨h.1, fun j => h.2 _ ⟨j, rfl⟩⟩⟩⟩
    rintro x ⟨j, rfl⟩
    exact h.2 j
  refine ⟨key start hs, ?_⟩
  intro i hi hne
  obtain ⟨s, hos, hmin⟩ := @exists_leader (transpose_index rows cols) i
  have hsn : s < rows * cols := hos.lt hperm hi
  have hsne : transpose_index rows cols s ≠ s := hos.not_fixed hperm hi hne
  have hacc : should_transpose_cycle fuel rows cols s = .ok true := by
    obtain ⟨b, hb, hiff⟩ := key s hsn
    have : b = true := hiff.mpr ⟨hsne, fun x hx => hmin x (hos.trans hx)⟩
    rw [hb, this]
  refine ⟨s, ⟨hos, hacc⟩, ?_⟩
  intro s' hos' hacc'
  have hsn' : s' < rows * cols := hos'.lt hperm hi
  obtain ⟨b, hb, hiff⟩ := key s' hsn'
  have hbt : b = true := by
    rw [hb] at hacc'
    cases hacc'
    rfl
  have hmin' := (hiff.mp hbt).2
  have h1 : s ≤ s' := hmin s' hos'
  have h2 : s' ≤ s := hmin' s ((hos'.symm hperm hi).trans hos)
  omega

/-- C13, amended, at `rows = 3`, `cols = 4`, `start = 2`. -/
theorem C13_classifier_accepts_leader_witness :
    (∃ b, should_transpose_cycle 12 3 4 2 = .ok b ∧
      (b = true ↔ (transpose_index 3 4 2 ≠ 2 ∧
        ∀ x, OnOrbit (transpose_index 3 4) 2 x → 2 ≤ x))) ∧
    ∀ i, i < 3 * 4 → transpose_index 3 4 i ≠ i →
      ∃ s, (OnOrbit (transpose_index 3 4) i s ∧ should_transpose_cycle 12 3 4 s = .ok true) ∧
        ∀ s', OnOrbit (transpose_index 3 4) i s' →
          should_transpose_cycle 12 3 4 s' = .ok true → s' = s :=
  C13_classifier_accepts_leader 3 4 2 12 (by decide) (by decide) (by decide)

/-- Once the rotation sits on a fixed point other than `start`, it never reaches the
`break`: it runs out of fuel or of the buffer. -/
theorem transpose_cycle_loop_stuck {rows cols start p : Nat}
    (hfix : transpose_index rows cols p = p) (hne : p ≠ start) :
    ∀ fuel (st : Machine) (count prev : Nat) (r : Machine × Nat),
      transpose_cycle_loop rows cols start fuel st count p prev ≠ .ok r := by
  intro fuel
  induction fuel with
  | zero =>
    intro st count prev r h
    cases h
  | succ fuel ih =>
    intro st count prev r
    unfold transpose_cycle_loop
    simp only [hfix]
    cases hread : st.matrix[p]? with
    | none =>
      intro h
      cases h
    | some temp =>
      simp only [if_neg hne]
      exact ih _ _ _ r

/-- With `rows = 2^63` and `cols = 3` the rotation started at `2` steps to `0`, which is
mapped to itself: the call returns on no buffer and with no fuel. -/
theorem transpose_cycle_overflow_stuck (m : List Nat) (tr : List Event) (fuel : Nat)
    (r : Machine × Nat) :
    transpose_cycle fuel 9223372036854775808 3 ⟨m, tr⟩ 2 ≠ .ok r := by
  have h2 : transpose_index 9223372036854775808 3 2 = 0 := by decide
  have h0 : transpose_index 9223372036854775808 3 0 = 0 := by decide
  unfold transpose_cycle
  simp only []
  cases hread : m[2]? with
  | none =>
    intro h
    cases h
  | some prev =>
    simp only []
    cases hloop : transpose_cycle_loop 9223372036854775808 3 2 fuel
        ⟨m, Event.rotate 2 :: tr⟩ 0 2 prev with
    | error e =>
      intro h
      cases h
    | ok res =>
      exfalso
      cases fuel with
      | zero => cases hloop
      | succ fuel =>
        unfold transpose_cycle_loop at hloop
        simp only [h2] at hloop
        cases hread0 : m[0]? with
        | none =>
          rw [hread0] at hloop
          cases hloop
        | some temp =>
          rw [hread0] at hloop
          simp only [show ¬ ((0 : Nat) = 2) by decide, if_false] at hloop
          exact transpose_cycle_loop_stuck h0 (by decide) _ _ _ _ _ hloop

/-- C14 fails as stated: with `rows = 2^62 + 1` and `cols = 4` the product does not fit an
`unsigned long` and `rows * cols`, as the program computes it, is `4`. On the buffer
`[1, 2, 3, 4]` of that length, the start index `1` lies below `rows * cols` and is not a
fixed point, but its target is `1 * rows = 2^62 + 1`, outside the buffer: the read
`matrix[to]` of the first iteration is out of bounds and `transpose_cycle` does not return
a rotated buffer, whatever the fuel. -/
theorem C14_overflow_counterexample :
    1 ≤ 4611686018427387905 ∧ 1 ≤ 4 ∧ 4611686018427387905 ≤ ULONG_MAX ∧
    ULONG_MAX < 4611686018427387905 * 4 ∧
    umul 4611686018427387905 4 = 4 ∧
    [1, 2, 3, 4].length = umul 4611686018427387905 4 ∧
    1 < umul 4611686018427387905 4 ∧
    transpose_index 4611686018427387905 4 1 = 4611686018427387905 ∧
    transpose_index 4611686018427387905 4 1 ≠ 1 ∧
    transpose_cycle 4 4611686018427387905 4 ⟨[1, 2, 3, 4], []⟩ 1
      = .error Fault.outOfBounds ∧
    ∀ (fuel : Nat) (r : Machine × Nat),
      transpose_cycle fuel 4611686018427387905 4 ⟨[1, 2, 3, 4], []⟩ 1 ≠ .ok r := by
  refine ⟨by decide, by decide, by decide, by decide, by decide, by decide, by decide,
    by decide, by decide, rfl, ?_⟩
  intro fuel r
  cases fuel with
  | zero =>
    intro h
    cases h
  | succ fuel =>
    have hrun : transpose_cycle (fuel + 1) 4611686018427387905 4 ⟨[1, 2, 3, 4], []⟩ 1
        = .error Fault.outOfBounds := rfl
    rw [hrun]
    intro h
    cases h

/-- C14, amended: when `rows * cols` fits an `unsigned long`, for a buffer of length
`rows * cols` and a start index below `rows * cols` that is not a fixed point,
`transpose_cycle` returns; the buffer it leaves has the same length, holds at
`transpose_index(rows, cols, i)` the value the buffer held at `i` for every `i` on the
cycle of `start`, and is unchanged at every index off that cycle. -/
theorem C14_cycle_rotation (rows cols start fuel : Nat) (st : Machine)
    (hn : rows * cols ≤ ULONG_MAX) (hm : st.matrix.length = rows * cols)
    (hs : start < rows * cols) (hne : transpose_index rows cols start ≠ start)
    (hfuel : rows * cols ≤ fuel) :
    ∃ st' count, transpose_cycle fuel rows cols st start = .ok (st', count) ∧
      st'.matrix.length = st.matrix.length ∧
      (∀ i, OnOrbit (transpose_index rows cols) start i →
        st'.matrix[transpose_index rows cols i]? = st.matrix[i]?) ∧
      (∀ j, ¬ OnOrbit (transpose_index rows cols) start j →
        st'.matrix[j]? = st.matrix[j]?) := by
  have hperm := permOn_transpose_index hn
  obtain ⟨st', hrun, _, _, hinv⟩ := transpose_cycle_spec hperm hn hs st hm hfuel hne
  exact ⟨st', _, hrun, by rw [hinv.length, hm],
    fun i hi => hinv.moved_orbit hperm hs hi, fun j hj => hinv.kept_off hj⟩

/-- C14, amended, at `rows = 2`, `cols = 3`, `start = 1` on `[1,2,3,4,5,6]`. -/
theorem C14_cycle_rotation_witness :
    ∃ st' count, transpose_cycle 6 2 3 ⟨[1, 2, 3, 4, 5, 6], []⟩ 1 = .ok (st', count) ∧
      st'.matrix.length = [1, 2, 3, 4, 5, 6].length ∧
      (∀ i, OnOrbit (transpose_index 2 3) 1 i →
        st'.matrix[transpose_index 2 3 i]? = [1, 2, 3, 4, 5, 6][i]?) ∧
      (∀ j, ¬ OnOrbit (transpose_index 2 3) 1 j →
        st'.matrix[j]? = [1, 2, 3, 4, 5, 6][j]?) :=
  C14_cycle_rotation 2 3 1 6 ⟨[1, 2, 3, 4, 5, 6], []⟩ (by decide) (by decide) (by decide)
    (by decide) (by decide)

/-- C15 fails as stated, in two ways. For a start index that is a fixed point (here
index `0` of a `2 × 2` matrix) the loop leaves `count` at `1`, the assertion
`count > 1` fails and nothing is returned. And with `rows = 2^63`, `cols = 3`, whose product
does not fit an `unsigned long`, the call started at the non-fixed index `2` returns on no
buffer at all. -/
theorem C15_counterexample :
    (2 * 2 ≤ ULONG_MAX ∧ 0 < 2 * 2 ∧ transpose_index 2 2 0 = 0 ∧
      transpose_cycle_loop 2 2 0 4 ⟨[1, 2, 3, 4], [Event.rotate 0]⟩ 0 0 1
        = .ok (⟨[1, 2, 3, 4], [Event.write 0, Event.rotate 0]⟩, 1) ∧
      transpose_cycle 4 2 2 ⟨[1, 2, 3, 4], []⟩ 0 = .error Fault.assertFailed ∧
      ∀ (fuel : Nat) (r : Machine × Nat),
        transpose_cycle fuel 2 2 ⟨[1, 2, 3, 4], []⟩ 0 ≠ .ok r) ∧
    (1 ≤ 9223372036854775808 ∧ 1 ≤ 3 ∧ 9223372036854775808 ≤ ULONG_MAX ∧
      2 < 9223372036854775808 * 3 ∧ 2 < umul 9223372036854775808 3 ∧
      transpose_index 9223372036854775808 3 2 ≠ 2 ∧
      ∀ (m : List Nat) (fuel : Nat) (r : Machine × Nat),
        transpose_cycle fuel 9223372036854775808 3 ⟨m, []⟩ 2 ≠ .ok r) := by
  refine ⟨⟨by decide, by decide, by decide, rfl, rfl, ?_⟩,
    ⟨by decide, by decide, by decide, by decide, by decide, by decide,
      fun m fuel r => transpose_cycle_overflow_stuck m [] fuel r⟩⟩
  intro fuel r
  cases fuel with
  | zero =>
    intro h
    cases h
  | succ fuel =>
    have hrun : transpose_cycle (fuel + 1) 2 2 ⟨[1, 2, 3, 4], []⟩ 0
        = .error Fault.assertFailed := rfl
    rw [hrun]
    intro h
    cases h

/-- Storing in a slot the value it holds leaves the list as it was. -/
theorem set_same {l : List Nat} {i v : Nat} (hi : i < l.length) (h : l[i]? = some v) :
    l.set i v = l := by
  apply List.ext_getElem?
  intro j
  by_cases hij : i = j
  · subst hij
    rw [List.getElem?_set_self hi]
    exact h.symm
  · rw [List.getElem?_set_ne hij]

/-- The rotation started at a fixed point stops after one iteration with `count = 1`, and
the assertion of `transpose_cycle` fails. -/
theorem transpose_cycle_fixed {rows cols start fuel : Nat} (st : Machine)
    (hs : start < st.matrix.length) (hfuel : 0 < fuel)
    (hfix : transpose_index rows cols start = start) :
    ∃ prev st1, st.matrix[start]? = some prev ∧
      transpose_cycle_loop rows cols start fuel ⟨st.matrix, Event.rotate start :: st.trace⟩
        0 start prev = .ok (st1, 1) ∧
      st1.matrix = st.matrix ∧
      st1.trace = Event.write start :: Event.rotate start :: st.trace ∧
      transpose_cycle fuel rows cols st start = .error Fault.assertFailed := by
  obtain ⟨fuel, rfl⟩ : ∃ f, fuel = f + 1 := ⟨fuel - 1, by omega⟩
  have hprev : st.matrix[start]? = some st.matrix[start] := List.getElem?_eq_getElem hs
  have hone : uadd 0 1 = 1 := by decide
  have hloop : transpose_cycle_loop rows cols start (fuel + 1)
      ⟨st.matrix, Event.rotate start :: st.trace⟩ 0 start st.matrix[start]
      = .ok (⟨st.matrix.set start st.matrix[start],
          Event.write start :: Event.rotate start :: st.trace⟩, 1) := by
    unfold transpose_cycle_loop
    simp only [hfix, hprev, hone, if_true]
  refine ⟨st.matrix[start], _, hprev, hloop, ?_, rfl, ?_⟩
  · exact set_same hs hprev
  · unfold transpose_cycle
    simp only [hprev, hloop]
    rfl

/-- C15, amended: when `rows * cols` fits an `unsigned long`, for a buffer of length
`rows * cols` and a start index below `rows * cols`: if `start` is not a fixed point,
`transpose_cycle` returns a count that is the length of the cycle of `start` (iterating
`transpose_index` `count` times from `start` gives `start`, no smaller positive number of
iterations does, and `count` is at least two), and the events the call records after its
entry are `count` writes, to pairwise distinct indices, which are exactly the members of
the cycle of `start`; if `start` is a fixed point, the loop ends with `count = 1`, the
cycle length, after one write to `start`, the assertion `count > 1` fails and nothing is
returned. -/
theorem C15_cycle_count (rows cols start fuel : Nat) (st : Machine)
    (hn : rows * cols ≤ ULONG_MAX) (hm : st.matrix.length = rows * cols)
    (hs : start < rows * cols) (hfuel : rows * cols ≤ fuel) :
    (transpose_index rows cols start ≠ start →
      ∃ st' count, transpose_cycle fuel rows cols st start = .ok (st', count) ∧
        count = Function.minimalPeriod (transpose_index rows cols) start ∧
        2 ≤ count ∧
        (transpose_index rows cols)^[count] start = start ∧
        (∀ k, 1 ≤ k → k < count → (transpose_index rows cols)^[k] start ≠ start) ∧
        ∃ W, st'.trace = W ++ Event.rotate start :: st.trace ∧
          (∀ e, e ∈ W → ∃ i, e = Event.write i) ∧
          (writes W).length = count ∧
          (writes W).Nodup ∧
          ∀ i, i ∈ writes W ↔ OnOrbit (transpose_index rows cols) start i) ∧
    (transpose_index rows cols start = start →
      ∃ prev st1, st.matrix[start]? = some prev ∧
        transpose_cycle_loop rows cols start fuel
          ⟨st.matrix, Event.rotate start :: st.trace⟩ 0 start prev = .ok (st1, 1) ∧
        Function.minimalPeriod (transpose_index rows cols) start = 1 ∧
        st1.matrix = st.matrix ∧
        st1.trace = Event.write start :: Event.rotate start :: st.trace ∧
        transpose_cycle fuel rows cols st start = .error Fault.assertFailed ∧
        ∀ r, transpose_cycle fuel rows cols st start ≠ .ok r) := by
  have hperm := permOn_transpose_index hn
  constructor
  · intro hne
    obtain ⟨st', hrun, h1, _, hinv⟩ := transpose_cycle_spec hperm hn hs st hm hfuel hne
    refine ⟨st', _, hrun, rfl, h1, Function.iterate_minimalPeriod, ?_, ?_⟩
    · intro k hk1 hklt hper
      exact Function.not_isPeriodicPt_of_pos_of_lt_minimalPeriod (by omega) hklt hper
    · refine ⟨_, hinv.trace, ?_, length_writes_cycleWrites _ _ _,
        nodup_writes_cycleWrites _ _, mem_writes_cycleWrites_iff hperm hs⟩
      intro e he
      obtain ⟨u, hu⟩ := mem_cycleWrites he
      exact ⟨_, hu⟩
  · intro hfix
    obtain ⟨prev, st1, hprev, hloop, hmat, htr, hassert⟩ :=
      @transpose_cycle_fixed rows cols start fuel st (by rw [hm]; exact hs) (by omega) hfix
    refine ⟨prev, st1, hprev, hloop,
      Function.minimalPeriod_eq_one_iff_isFixedPt.mpr hfix, hmat, htr, hassert, ?_⟩
    intro r h
    rw [hassert] at h
    cases h

/-- C15, amended, at `rows = 4`, `cols = 2` on `[1..8]`: the non-fixed start `3`, whose
cycle has three members, and the fixed start `7`. -/
theorem C15_cycle_count_witness :
    (∃ st' count, transpose_cycle 8 4 2 ⟨[1, 2, 3, 4, 5, 6, 7, 8], []⟩ 3 = .ok (st', count) ∧
      count = Function.minimalPeriod (transpose_index 4 2) 3 ∧
      2 ≤ count ∧
      (transpose_index 4 2)^[count] 3 = 3 ∧
      (∀ k, 1 ≤ k → k < count → (transpose_index 4 2)^[k] 3 ≠ 3) ∧
      ∃ W, st'.trace = W ++ Event.rotate 3 :: [] ∧
        (∀ e, e ∈ W → ∃ i, e = Event.write i) ∧
        (writes W).length = count ∧
        (writes W).Nodup ∧
        ∀ i, i ∈ writes W ↔ OnOrbit (transpose_index 4 2) 3 i) ∧
    (∃ prev st1, [1, 2, 3, 4, 5, 6, 7, 8][7]? = some prev ∧
      transpose_cycle_loop 4 2 7 8 ⟨[1, 2, 3, 4, 5, 6, 7, 8], Event.rotate 7 :: []⟩ 0 7 prev
        = .ok (st1, 1) ∧
      Function.minimalPeriod (transpose_index 4 2) 7 = 1 ∧
      st1.matrix = [1, 2, 3, 4, 5, 6, 7, 8] ∧
      st1.trace = Event.write 7 :: Event.rotate 7 :: [] ∧
      transpose_cycle 8 4 2 ⟨[1, 2, 3, 4, 5, 6, 7, 8], []⟩ 7 = .error Fault.assertFailed ∧
      ∀ r, transpose_cycle 8 4 2 ⟨[1, 2, 3, 4, 5, 6, 7, 8], []⟩ 7 ≠ .ok r) :=
  ⟨(C15_cycle_count 4 2 3 8 ⟨[1, 2, 3, 4, 5, 6, 7, 8], []⟩ (by decide) (by decide)
      (by decide) (by decide)).1 (by decide),
    (C15_cycle_count 4 2 7 8 ⟨[1, 2, 3, 4, 5, 6, 7, 8], []⟩ (by decide) (by decide)
      (by decide) (by decide)).2 (by decide)⟩

/-- C16: on valid input index `0` and index `rows * cols - 1` are fixed points of
`transpose_index`, and the run of `transpose_matrix` records no write to either slot; both
slots hold at the end the values they held at the start. -/
theorem C16_corners_fixed_and_untouched (rows cols fuel : Nat) (m : List Nat)
    (hr : 1 ≤ rows) (hc : 1 ≤ cols) (hn : rows * cols ≤ ULONG_MAX)
    (hm : m.length = rows * cols) (hfuel : rows * cols ≤ fuel) :
    transpose_index rows cols 0 = 0 ∧
    transpose_index rows cols (rows * cols - 1) = rows * cols - 1 ∧
    ∃ st, transpose_matrix fuel rows cols m = .ok (st, 0) ∧
      Event.write 0 ∉ st.trace ∧
      Event.write (rows * cols - 1) ∉ st.trace ∧
      st.matrix[0]? = m[0]? ∧
      st.matrix[rows * cols - 1]? = m[rows * cols - 1]? := by
  have hzero := transpose_index_zero hr hc hn
  have hlast := transpose_index_last hr hc hn
  have h0 : 0 < rows * cols := Nat.mul_pos hr hc
  obtain ⟨st, k, hrun, hinv, _⟩ := transpose_matrix_run hr hc hn hm hfuel
  refine ⟨hzero, hlast, st, hrun, ?_, ?_, ?_, ?_⟩
  · intro h
    exact (hinv.events _ h).2 hzero
  · intro h
    exact (hinv.events _ h).2 hlast
  · have := hinv.final h0
    rwa [hzero] at this
  · have := hinv.final (show rows * cols - 1 < rows * cols by omega)
    rwa [hlast] at this

/-- C16 at `rows = 3`, `cols = 4` on `[0..11]`. -/
theorem C16_corners_fixed_and_untouched_witness :
    transpose_index 3 4 0 = 0 ∧
    transpose_index 3 4 (3 * 4 - 1) = 3 * 4 - 1 ∧
    ∃ st, transpose_matrix 12 3 4 [0, 1, 2, 3, 4, 5, 6, 7, 8, 9, 10, 11] = .ok (st, 0) ∧
      Event.write 0 ∉ st.trace ∧
      Event.write (3 * 4 - 1) ∉ st.trace ∧
      st.matrix[0]? = [0, 1, 2, 3, 4, 5, 6, 7, 8, 9, 10, 11][0]? ∧
      st.matrix[3 * 4 - 1]? = [0, 1, 2, 3, 4, 5, 6, 7, 8, 9, 10, 11][3 * 4 - 1]? :=
  C16_corners_fixed_and_untouched 3 4 12 [0, 1, 2, 3, 4, 5, 6, 7, 8, 9, 10, 11] (by decide)
    (by decide) (by decide) (by decide) (by decide)

/-- C17: for all `a` and `b`, `gcd(a, b)` returns (any fuel above `b` is enough), and
what it returns is the greatest common divisor of `a` and `b`: it equals `Nat.gcd a b`,
divides both, and is divided by every common divisor; it is `a` when `b = 0` and `b` when
`a = 0`, hence `0` when both are `0`. -/
theorem C17_gcd_correct (a b fuel : Nat) (hfuel : b < fuel) :
    ∃ g, gcd fuel a b = .ok g ∧
      g = Nat.gcd a b ∧
      g ∣ a ∧ g ∣ b ∧ (∀ d, d ∣ a → d ∣ b → d ∣ g) ∧
      (b = 0 → g = a) ∧ (a = 0 → g = b) := by
  refine ⟨Nat.gcd a b, gcd_spec hfuel, rfl, Nat.gcd_dvd_left a b, Nat.gcd_dvd_right a b,
    fun d ha hb => Nat.dvd_gcd ha hb, ?_, ?_⟩
  · intro hb
    rw [hb, Nat.gcd_zero_right]
  · intro ha
    rw [ha, Nat.gcd_zero_left]

/-- C17 at `a = 12`, `b = 18`. -/
theorem C17_gcd_correct_witness :
    ∃ g, gcd 19 12 18 = .ok g ∧
      g = Nat.gcd 12 18 ∧
      g ∣ 12 ∧ g ∣ 18 ∧ (∀ d, d ∣ 12 → d ∣ 18 → d ∣ g) ∧
      (18 = 0 → g = 12) ∧ (12 = 0 → g = 18) :=
  C17_gcd_correct 12 18 19 (by decide)

/-- The digit count is at most one more than the number of divisions by ten that the
value can take. -/
theorem count_digits_loop_spec : ∀ k fuel value result, value < 10 ^ (k + 1) → k < fuel →
    ∃ r, count_digits_loop fuel value result = .ok r ∧ r ≤ result + k := by
  intro k
  induction k with
  | zero =>
    intro fuel value result hv hf
    obtain ⟨fuel, rfl⟩ : ∃ f, fuel = f + 1 := ⟨fuel - 1, by omega⟩
    have h0 : value / 10 = 0 := Nat.div_eq_of_lt (by simpa using hv)
    unfold count_digits_loop
    simp only [h0]
    exact ⟨result, by simp, by omega⟩
  | succ k ih =>
    intro fuel value result hv hf
    obtain ⟨fuel, rfl⟩ : ∃ f, fuel = f + 1 := ⟨fuel - 1, by omega⟩
    unfold count_digits_loop
    by_cases h0 : value / 10 = 0
    · simp only [h0]
      exact ⟨result, by simp, by omega⟩
    · have hlt : value / 10 < 10 ^ (k + 1) := by
        rw [Nat.div_lt_iff_lt_mul (by decide)]
        rw [Nat.pow_succ] at hv
        exact hv
      obtain ⟨r, hr, hle⟩ :=
        ih fuel (value / 10) ((result + 1) % (UINT_MAX + 1)) hlt (by omega)
      have hmod : (result + 1) % (UINT_MAX + 1) ≤ result + 1 := Nat.mod_le _ _
      simp only [ne_eq, h0, not_false_eq_true, if_true]
      exact ⟨r, hr, by omega⟩

/-- For an `unsigned long` value `count_digits` returns at most `20`, so the assertion of
`print_matrix` holds. -/
theorem count_digits_le {fuel value : Nat} (hv : value ≤ ULONG_MAX) (hf : 20 ≤ fuel) :
    ∃ nd, count_digits fuel value = .ok nd ∧ nd ≤ 20 := by
  have hlt : value < 10 ^ (19 + 1) := by
    have : ULONG_MAX < 10 ^ (19 + 1) := by decide
    omega
  obtain ⟨r, hr, hle⟩ := count_digits_loop_spec 19 fuel value 1 hlt (by omega)
  exact ⟨r, hr, by omega⟩

/-- The printing loop returns when the number of elements fits the `unsigned` counter. -/
theorem print_matrix_loop_returns {cols size : Nat} {matrix : List Nat}
    (hsize : size ≤ UINT_MAX) (hlen : size ≤ matrix.length) :
    ∀ fuel i out, i ≤ size → size - i < fuel →
      ∃ res, print_matrix_loop cols size matrix fuel i out = .ok res := by
  intro fuel
  induction fuel with
  | zero => intro i out _ hf; omega
  | succ fuel ih =>
    intro i out hi hf
    unfold print_matrix_loop
    by_cases hlt : i < size
    · have hb : i < matrix.length := by omega
      have hread : matrix[i]? = some matrix[i] := List.getElem?_eq_getElem hb
      have hmod : (i + 1) % (UINT_MAX + 1) = i + 1 := Nat.mod_eq_of_lt (by omega)
      simp only [if_pos hlt, hread, hmod]
      exact ih _ _ (by omega) (by omega)
    · simp only [if_neg hlt]
      exact ⟨out, rfl⟩

/-- The function `print_matrix` returns when `rows * cols` fits the `unsigned` counter. -/
theorem print_matrix_returns {fuel rows cols : Nat} {matrix : List Nat}
    (hsize : rows * cols ≤ UINT_MAX) (hlen : matrix.length = rows * cols)
    (h20 : 20 ≤ fuel) (hfuel : rows * cols < fuel) :
    ∃ res, print_matrix fuel rows cols matrix = .ok res := by
  have hU : UINT_MAX ≤ ULONG_MAX := by decide
  have hmul : umul rows cols = rows * cols := umul_of_le (by omega)
  obtain ⟨nd, hnd, hle⟩ := @count_digits_le fuel (rows * cols) (by omega) h20
  unfold print_matrix
  simp only [hmul, hnd, if_pos hle]
  exact print_matrix_loop_returns hsize (by omega) fuel 0 [] (Nat.zero_le _) (by omega)

/-- The printing loop never returns when the number of elements exceeds `UINT_MAX`: the
`unsigned` counter wraps before it reaches `size`. -/
theorem print_matrix_loop_never {cols size : Nat} {matrix : List Nat}
    (hsize : UINT_MAX < size) :
    ∀ fuel i out res, i ≤ UINT_MAX → print_matrix_loop cols size matrix fuel i out ≠ .ok res := by
  intro fuel
  induction fuel with
  | zero =>
    intro i out res _ h
    cases h
  | succ fuel ih =>
    intro i out res hi
    unfold print_matrix_loop
    have hlt : i < size := by omega
    simp only [if_pos hlt]
    cases hread : matrix[i]? with
    | none =>
      intro h
      cases h
    | some value =>
      simp only []
      exact ih _ _ res (Nat.le_of_lt_succ (Nat.mod_lt _ (Nat.succ_pos _)))

/-- When `rows * cols` fits an `unsigned long` but not an `unsigned`, the call of
`print_matrix` that precedes the transposition does not return, so `main` does not get
to `transpose_matrix`. -/
theorem main_stuck_before_transpose {rows cols : Nat} (hn : rows * cols ≤ ULONG_MAX)
    (hbig : UINT_MAX < rows * cols) (fuel : Nat) (calloc_ok : Bool) :
    ¬ (main fuel rows cols calloc_ok).reached_transpose := by
  have hmul : umul rows cols = rows * cols := umul_of_le hn
  have hprint : ∀ matrix res, print_matrix fuel rows cols matrix ≠ .ok res := by
    intro matrix res
    unfold print_matrix
    simp only [hmul]
    cases hcd : count_digits fuel (rows * cols) with
    | error e =>
      intro h
      cases h
    | ok nd =>
      simp only []
      by_cases hle : nd ≤ 20
      · rw [if_pos hle]
        exact print_matrix_loop_never hbig fuel 0 [] res (Nat.zero_le _)
      · rw [if_neg hle]
        intro h
        cases h
  unfold main
  by_cases hguard : rows > ULONG_MAX / cols
  · rw [if_pos hguard]
    exact id
  · rw [if_neg hguard]
    cases calloc_ok with
    | false => exact id
    | true =>
      simp only [Bool.true_eq_false, if_false]
      cases hp : print_matrix fuel rows cols
          (List.map (fun n => uadd n 1) (List.range (umul rows cols))) with
      | error e => exact id
      | ok before => exact absurd hp (hprint _ _)

/-- C18: for `cols ≥ 1` the guard of `main`, `rows > ULONG_MAX / cols`, holds exactly when
the exact product `rows * cols` exceeds `ULONG_MAX`, and `main` ends in the overflow
`error_and_exit` exactly when the guard holds; so `main` gets to `transpose_matrix` only
when the product fits. When moreover the product fits an `unsigned` and `calloc`
succeeds, `main` does call `transpose_matrix` on the buffer `1, 2, ..., rows * cols` and
returns. -/
theorem C18_overflow_guard (rows cols : Nat) (hc : 1 ≤ cols) :
    (rows > ULONG_MAX / cols ↔ rows * cols > ULONG_MAX) ∧
    (∀ fuel calloc_ok,
      main fuel rows cols calloc_ok = MainOutcome.overflow_exit ↔ rows > ULONG_MAX / cols) ∧
    (∀ fuel calloc_ok,
      main fuel rows cols calloc_ok = MainOutcome.overflow_exit ↔ rows * cols > ULONG_MAX) ∧
    (∀ fuel calloc_ok,
      (main fuel rows cols calloc_ok).reached_transpose → rows * cols ≤ ULONG_MAX) ∧
    (1 ≤ rows → rows * cols ≤ UINT_MAX → ∀ fuel, 20 ≤ fuel → rows * cols < fuel →
      ∃ before st after,
        main fuel rows cols true = MainOutcome.finished before st after ∧
        transpose_matrix fuel rows cols ((List.range (rows * cols)).map (fun n => n + 1))
          = .ok (st, 0)) := by
  have hiff : rows > ULONG_MAX / cols ↔ rows * cols > ULONG_MAX :=
    Nat.div_lt_iff_lt_mul hc
  have hexit : ∀ fuel calloc_ok,
      main fuel rows cols calloc_ok = MainOutcome.overflow_exit ↔ rows > ULONG_MAX / cols := by
    intro fuel calloc_ok
    constructor
    · intro hmain
      by_contra hguard
      unfold main at hmain
      rw [if_neg hguard] at hmain
      cases calloc_ok with
      | false => simp at hmain
      | true =>
        simp only [Bool.true_eq_false, if_false] at hmain
        cases hp : print_matrix fuel rows cols
            (List.map (fun n => uadd n 1) (List.range (umul rows cols))) with
        | error e => rw [hp] at hmain; cases hmain
        | ok before =>
          rw [hp] at hmain
          cases ht : transpose_matrix fuel rows cols
              (List.map (fun n => uadd n 1) (List.range (umul rows cols))) with
          | error e => rw [ht] at hmain; cases hmain
          | ok res =>
            rw [ht] at hmain
            cases ha : print_matrix fuel cols rows res.1.matrix with
            | error e => simp only [ha] at hmain; cases hmain
            | ok after => simp only [ha] at hmain; cases hmain
    · intro hguard
      unfold main
      rw [if_pos hguard]
  refine ⟨hiff, hexit, fun fuel ok => (hexit fuel ok).trans hiff, ?_, ?_⟩
  · intro fuel calloc_ok hreach
    by_contra hgt
    have hguard : rows > ULONG_MAX / cols := hiff.mpr (not_le.mp hgt)
    rw [(hexit fuel calloc_ok).mpr hguard] at hreach
    exact hreach
  · intro hr hsmall fuel h20 hfuel
    have hU : UINT_MAX ≤ ULONG_MAX := by decide
    have hn : rows * cols ≤ ULONG_MAX := by omega
    have hguard : ¬ rows > ULONG_MAX / cols := fun h => absurd (hiff.mp h) (by omega)
    have hmul : umul rows cols = rows * cols := umul_of_le hn
    have hinit : (List.range (rows * cols)).map (fun n => uadd n 1)
        = (List.range (rows * cols)).map (fun n => n + 1) := by
      apply List.map_congr_left
      intro n hmem
      rw [List.mem_range] at hmem
      exact uadd_of_le (by omega)
    have hlen : ((List.range (rows * cols)).map (fun n => n + 1)).length = rows * cols := by
      simp
    obtain ⟨before, hbefore⟩ := print_matrix_returns hsmall hlen h20 hfuel
    obtain ⟨st, hrun, hlen', _⟩ :=
      @transpose_matrix_moves rows cols fuel _ hr hc hn hlen (by omega)
    have hsmall' : cols * rows ≤ UINT_MAX := by rwa [Nat.mul_comm]
    obtain ⟨after, hafter⟩ := @print_matrix_returns fuel cols rows st.matrix hsmall'
      (by rw [hlen', hlen, Nat.mul_comm]) h20 (by rwa [Nat.mul_comm])
    refine ⟨before, st, after, ?_, hrun⟩
    unfold main
    rw [if_neg hguard]
    simp only [Bool.true_eq_false, if_false, hmul, hinit, hbefore, hrun, hafter]

/-- C18 at `rows = 2`, `cols = 3`, where the product fits and `main` runs to its end, and
at `rows = 2^63`, `cols = 3`, where it does not fit and `main` ends in the overflow exit. -/
theorem C18_overflow_guard_witness :
    ((2 > ULONG_MAX / 3 ↔ 2 * 3 > ULONG_MAX) ∧
      (∀ fuel calloc_ok,
        main fuel 2 3 calloc_ok = MainOutcome.overflow_exit ↔ 2 > ULONG_MAX / 3) ∧
      (∀ fuel calloc_ok,
        main fuel 2 3 calloc_ok = MainOutcome.overflow_exit ↔ 2 * 3 > ULONG_MAX) ∧
      (∀ fuel calloc_ok, (main fuel 2 3 calloc_ok).reached_transpose → 2 * 3 ≤ ULONG_MAX) ∧
      (1 ≤ 2 → 2 * 3 ≤ UINT_MAX → ∀ fuel, 20 ≤ fuel → 2 * 3 < fuel →
        ∃ before st after,
          main fuel 2 3 true = MainOutcome.finished before st after ∧
          transpose_matrix fuel 2 3 ((List.range (2 * 3)).map (fun n => n + 1))
            = .ok (st, 0))) ∧
    (∀ fuel calloc_ok,
      main fuel 9223372036854775808 3 calloc_ok = MainOutcome.overflow_exit ↔
        9223372036854775808 * 3 > ULONG_MAX) ∧
    main 20 2 3 true = MainOutcome.finished
      [(1, false), (2, false), (3, true), (4, false), (5, false), (6, true)]
      ⟨[1, 4, 2, 5, 3, 6], [Event.sub 4 4, Event.write 1, Event.write 3, Event.write 4,
        Event.write 2, Event.rotate 1, Event.sub 6 2]⟩
      [(1, false), (4, true), (2, false), (5, true), (3, false), (6, true)] ∧
    main 20 2 3 false = MainOutcome.alloc_exit ∧
    main 20 9223372036854775808 3 true = MainOutcome.overflow_exit :=
  ⟨C18_overflow_guard 2 3 (by decide),
    (C18_overflow_guard 9223372036854775808 3 (by decide)).2.2.1, rfl, rfl, rfl⟩

/-- C19: on valid input the initial value of `nswaps`, computed with the program's `gcd`,
is non-zero exactly when `rows ≥ 2` and `cols ≥ 2`; in that case
`transpose_index(rows, cols, 1) = rows`, which is not `1`, so the seed search loop returns
index `1` at once. The run records no execution of the body of that loop, and when
`rows ≥ 2` and `cols ≥ 2` the first two events are the initial subtraction and the entry of
`transpose_cycle` at index `1`; otherwise `transpose_cycle` is never entered. -/
theorem C19_seed_is_index_one (rows cols fuel : Nat) (m : List Nat)
    (hr : 1 ≤ rows) (hc : 1 ≤ cols) (hn : rows * cols ≤ ULONG_MAX)
    (hm : m.length = rows * cols) (hfuel : rows * cols ≤ fuel) :
    ∃ g, gcd fuel (usub rows 1) (usub cols 1) = .ok g ∧
      (usub (umul rows cols) (uadd g 1) ≠ 0 ↔ 2 ≤ rows ∧ 2 ≤ cols) ∧
      (2 ≤ rows → 2 ≤ cols →
        transpose_index rows cols 1 = rows ∧ transpose_index rows cols 1 ≠ 1 ∧
        ∀ st0, seed_loop rows cols fuel st0 1 = .ok (st0, 1)) ∧
      ∃ st, transpose_matrix fuel rows cols m = .ok (st, 0) ∧
        (∀ i, Event.skip i ∉ st.trace) ∧
        (2 ≤ rows → 2 ≤ cols →
          ∃ pre, st.trace = pre ++ [Event.rotate 1, Event.sub (rows * cols) (g + 1)]) ∧
        (¬ (2 ≤ rows ∧ 2 ≤ cols) → ∀ s, Event.rotate s ∉ st.trace) := by
  have hrows : rows ≤ rows * cols := Nat.le_mul_of_pos_right rows hc
  have hcols : cols ≤ rows * cols := Nat.le_mul_of_pos_left cols hr
  obtain ⟨hgle, _⟩ := card_nonfixed_eq hr hc hn
  obtain ⟨st, k, hrun, hinv, _, hbig, hsmall⟩ := transpose_matrix_run hr hc hn hm hfuel
  refine ⟨Nat.gcd (rows - 1) (cols - 1), ?_, ?_, ?_, st, hrun, ?_, hbig, ?_⟩
  · rw [usub_of_le hr (by omega), usub_of_le hc (by omega)]
    exact gcd_spec (by omega)
  · rw [umul_of_le hn, uadd_of_le (by omega), usub_of_le hgle hn]
    exact nswaps_ne_zero_iff hr hc
  · intro h2r h2c
    have hone := transpose_index_one h2r h2c hn
    have hne : transpose_index rows cols 1 ≠ 1 := by rw [hone]; omega
    have hpos : 0 < fuel := by
      have : 2 * rows ≤ rows * cols := by
        rw [Nat.mul_comm 2 rows]; exact Nat.mul_le_mul_left _ h2c
      omega
    exact ⟨hone, hne, fun st0 => seed_loop_stop st0 hpos hne⟩
  · intro i h
    exact hinv.events _ h
  · intro hnot s h
    rw [hsmall hnot] at h
    simp at h

/-- C19 at `rows = 4`, `cols = 2` on `[1..8]`. -/
theorem C19_seed_is_index_one_witness :
    ∃ g, gcd 8 (usub 4 1) (usub 2 1) = .ok g ∧
      (usub (umul 4 2) (uadd g 1) ≠ 0 ↔ 2 ≤ 4 ∧ 2 ≤ 2) ∧
      (2 ≤ 4 → 2 ≤ 2 →
        transpose_index 4 2 1 = 4 ∧ transpose_index 4 2 1 ≠ 1 ∧
        ∀ st0, seed_loop 4 2 8 st0 1 = .ok (st0, 1)) ∧
      ∃ st, transpose_matrix 8 4 2 [1, 2, 3, 4, 5, 6, 7, 8] = .ok (st, 0) ∧
        (∀ i, Event.skip i ∉ st.trace) ∧
        (2 ≤ 4 → 2 ≤ 2 →
          ∃ pre, st.trace = pre ++ [Event.rotate 1, Event.sub (4 * 2) (g + 1)]) ∧
        (¬ (2 ≤ 4 ∧ 2 ≤ 2) → ∀ s, Event.rotate s ∉ st.trace) :=
  C19_seed_is_index_one 4 2 8 [1, 2, 3, 4, 5, 6, 7, 8] (by decide) (by decide) (by decide)
    (by decide) (by decide)

/-- C20: on valid input every index `transpose_matrix` uses is in range. The run returns,
so no checked access of the buffer took the out-of-bounds branch; every index passed to
`should_transpose_cycle` or to `transpose_cycle` is strictly below `rows * cols - 1`; and
every written slot, which is also every slot `transpose_cycle` reads after the one at its
start index, is below `rows * cols`. -/
theorem C20_indices_in_range (rows cols fuel : Nat) (m : List Nat)
    (hr : 1 ≤ rows) (hc : 1 ≤ cols) (hn : rows * cols ≤ ULONG_MAX)
    (hm : m.length = rows * cols) (hfuel : rows * cols ≤ fuel) :
    ∃ st, transpose_matrix fuel rows cols m = .ok (st, 0) ∧
      transpose_matrix fuel rows cols m ≠ .error Fault.outOfBounds ∧
      (∀ i, Event.probe i ∈ st.trace → i < rows * cols - 1) ∧
      (∀ i, Event.rotate i ∈ st.trace → i < rows * cols - 1) ∧
      (∀ i, Event.write i ∈ st.trace → i < rows * cols) := by
  obtain ⟨st, k, hrun, hinv, _⟩ := transpose_matrix_run hr hc hn hm hfuel
  refine ⟨st, hrun, ?_, ?_, ?_, ?_⟩
  · rw [hrun]
    intro h
    cases h
  · intro i h
    have : i + 1 < rows * cols := hinv.events _ h
    omega
  · intro i h
    have : i + 1 < rows * cols ∧ transpose_index rows cols i ≠ i := hinv.events _ h
    omega
  · intro i h
    have : i < rows * cols ∧ transpose_index rows cols i ≠ i := hinv.events _ h
    exact this.1

/-- C20 at `rows = 3`, `cols = 3` on `[1..9]`. -/
theorem C20_indices_in_range_witness :
    ∃ st, transpose_matrix 9 3 3 [1, 2, 3, 4, 5, 6, 7, 8, 9] = .ok (st, 0) ∧
      transpose_matrix 9 3 3 [1, 2, 3, 4, 5, 6, 7, 8, 9] ≠ .error Fault.outOfBounds ∧
      (∀ i, Event.probe i ∈ st.trace → i < 3 * 3 - 1) ∧
      (∀ i, Event.rotate i ∈ st.trace → i < 3 * 3 - 1) ∧
      (∀ i, Event.write i ∈ st.trace → i < 3 * 3) :=
  C20_indices_in_range 3 3 9 [1, 2, 3, 4, 5, 6, 7, 8, 9] (by decide) (by decide) (by decide)
    (by decide) (by decide)

end Transpose
